import Mathlib

/-!
# image-management-tool: a shallow embedding of `script.js`

The development follows the handlers of `script.js`: `processFiles`,
`updateGroupComment`, `updateImageName`, `deleteImage`, `downloadImages` and
`downloadExcel`, and the string helpers they use.

## Modelling choices

* JavaScript strings are lists of characters (`JSString`).  The program only splits
  names at `.` and `_`, so the difference between UTF-16 code units and code points is
  not observable on well-formed names.
* The plain objects used as dictionaries (`imageGroups`, `excelLookup`) are association
  lists holding the own properties in creation order, together with
  `getProp`, the property read `obj[key]`, which falls back to `Object.prototype` when
  `key` is not an own property, and `objectKeys`, the result of `Object.keys(obj)`,
  which lists array-index keys first, in ascending numeric order, and then the other
  keys in creation order.  `Object.prototype` is taken in its initial state.
* A spreadsheet cell is a string or is missing (`undefined`); a row is the array that
  the decoder returns with `header: 1`, and may be shorter than the header row.
* A file is a name and an opaque content identifier.
* An exception thrown inside a handler leaves the global `imageGroups` as it was at
  the moment of the throw; `processFiles` reports it in the second component of its
  result.
-/

namespace ImageTool

/-! ## Strings -/

/-- A JavaScript string. -/
abbrev JSString := List Char

/-- The index of the last occurrence of `c` in `s`, if there is one. -/
def lastIndex? (s : JSString) (c : Char) : Option Nat :=
  match s with
  | [] => none
  | x :: rest =>
    match lastIndex? rest c with
    | some k => some (k + 1)
    | none => if x = c then some 0 else none

/-- The result of `s.lastIndexOf(c)`: index of the last occurrence, `-1` when absent. -/
def lastIndexOf (s : JSString) (c : Char) : Int :=
  match lastIndex? s c with
  | some k => (k : Int)
  | none => -1

/-- The argument clamping of `substring`: negative becomes `0`, too large becomes the length. -/
def clampIndex (len : Nat) (i : Int) : Nat := min i.toNat len

/-- The result of `s.substring(a, b)`: both ends are clamped to `[0, length]` and swapped
when out of order. -/
def substring (s : JSString) (a b : Int) : JSString :=
  let x := clampIndex s.length a
  let y := clampIndex s.length b
  (s.drop (min x y)).take (max x y - min x y)

/-- The result of `s.substring(a)`: from the clamped index to the end. -/
def substringFrom (s : JSString) (a : Int) : JSString :=
  s.drop (clampIndex s.length a)

/-- The result of `s.slice(a)` for a non-negative `a`. -/
def sliceFrom (s : JSString) (a : Nat) : JSString := s.drop a

/-- The characters that `.` does not match in a regular expression without the `s` flag:
LF, CR, U+2028 and U+2029. -/
def isLineTerminator (c : Char) : Bool :=
  c.toNat = 0x0A || c.toNat = 0x0D || c.toNat = 0x2028 || c.toNat = 0x2029

/-- The class `\d` of a regular expression without the `u`/`v` flags: `0` to `9`. -/
def isDigit (c : Char) : Bool := 48 ≤ c.toNat && c.toNat ≤ 57

/-- Matches `\d+$` anchored at the start of `s`: `s` is a non-empty run of digits. -/
def digitsToEnd (s : JSString) : Bool := !s.isEmpty && s.all isDigit

/-- Matches `_\d+$` anchored at the start of `s`. -/
def underscoreDigitsToEnd (s : JSString) : Bool :=
  match s with
  | c :: rest => c = '_' && digitsToEnd rest
  | [] => false

/-- The capture group 1 of `s.match(/^(.+)_\d+$/)`, `none` when the match is `null`.
The greedy `.+` consumes one character that is not a line terminator, then first tries
to consume more and only then lets `_\d+$` match what is left. -/
def matchFamily : JSString → Option JSString
  | [] => none
  | c :: rest =>
    if isLineTerminator c then none
    else
      match matchFamily rest with
      | some p => some (c :: p)
      | none => if underscoreDigitsToEnd rest then some [c] else none

/-- The capture group 1 of `s.match(/_(\d+)$/)`, `none` when the match is `null`.
The pattern is tried at each start position from left to right. -/
def matchNumber : JSString → Option JSString
  | [] => none
  | c :: rest =>
    if c = '_' && digitsToEnd rest then some rest else matchNumber rest

/-- The value `fileName.substring(0, fileName.lastIndexOf('.'))` of `processFiles`,
`createImageElement` and `updateImageName`. -/
def nameWithoutExt (fileName : JSString) : JSString :=
  substring fileName 0 (lastIndexOf fileName '.')

/-- The value `originalName.substring(originalName.lastIndexOf('.'))` of `updateImageName`. -/
def extensionOf (originalName : JSString) : JSString :=
  substringFrom originalName (lastIndexOf originalName '.')

/-- The value `familyMatch ? familyMatch[1] : nameWithoutExt` computed from a base name. -/
def familyOfBase (base : JSString) : JSString :=
  match matchFamily base with
  | some p => p
  | none => base

/-- The value `numberMatch ? numberMatch[1] : '1'` computed from a base name. -/
def ordinalOfBase (base : JSString) : JSString :=
  match matchNumber base with
  | some d => d
  | none => ['1']

/-- The `familyName` that `processFiles` computes for a file name. -/
def familyName (fileName : JSString) : JSString := familyOfBase (nameWithoutExt fileName)

/-- The `currentNumber` that `createImageElement` computes for an original name. -/
def currentNumber (originalName : JSString) : JSString :=
  ordinalOfBase (nameWithoutExt originalName)

/-- The utility `getFileExtension`: `filename.slice((filename.lastIndexOf(".") - 1 >>> 0) + 2)`.
The unsigned shift `>>> 0` is reduction modulo `2 ^ 32`. -/
def getFileExtension (filename : JSString) : JSString :=
  sliceFrom filename (((lastIndexOf filename '.' - 1) % (2 ^ 32 : Int)).toNat + 2)

/-- The utility `removeFileExtension`:
`filename.substring(0, filename.lastIndexOf('.')) || filename`. -/
def removeFileExtension (filename : JSString) : JSString :=
  let r := substring filename 0 (lastIndexOf filename '.')
  if r.isEmpty then filename else r

/-! ## Plain objects used as dictionaries -/

/-- The property names that every plain object inherits from `Object.prototype`. -/
def objectPrototypeKeys : List JSString :=
  ["constructor", "__defineGetter__", "__defineSetter__", "hasOwnProperty",
   "__lookupGetter__", "__lookupSetter__", "isPrototypeOf", "propertyIsEnumerable",
   "toString", "valueOf", "__proto__", "toLocaleString"].map String.toList

/-- The outcome of the property read `obj[key]` on a plain object. -/
inductive PropValue (α : Type) where
  /-- The key is an own property with this value. -/
  | own (v : α)
  /-- The key is not an own property and the read returns the member of
  `Object.prototype` with this name (a function or an object, always truthy). -/
  | inherited (name : JSString)
  /-- The read returns `undefined`. -/
  | undefined
  deriving DecidableEq, Repr

/-- The value of the own property `k`, if the object has one. -/
def getOwn {α : Type} (o : List (JSString × α)) (k : JSString) : Option α :=
  match o with
  | [] => none
  | (k1, v) :: rest => if k1 = k then some v else getOwn rest k

/-- The property read `o[k]`. -/
def getProp {α : Type} (o : List (JSString × α)) (k : JSString) : PropValue α :=
  match getOwn o k with
  | some v => PropValue.own v
  | none => if k ∈ objectPrototypeKeys then PropValue.inherited k else PropValue.undefined

/-- Applies an in-place update to the value held by the own property `k`. -/
def modifyOwn {α : Type} (o : List (JSString × α)) (k : JSString) (f : α → α) :
    List (JSString × α) :=
  match o with
  | [] => []
  | (k1, v) :: rest => if k1 = k then (k1, f v) :: rest else (k1, v) :: modifyOwn rest k f

/-- The assignment `o[k] = v` for a string value `v`: an existing own property is
overwritten in place, a new one is created last; assigning a string to `__proto__`
goes to the inherited setter, which ignores it. -/
def setProp {α : Type} (o : List (JSString × α)) (k : JSString) (v : α) :
    List (JSString × α) :=
  match getOwn o k with
  | some _ => modifyOwn o k (fun _ => v)
  | none => if k = "__proto__".toList then o else o ++ [(k, v)]

/-- The statement `delete o[k]`. -/
def deleteOwn {α : Type} (o : List (JSString × α)) (k : JSString) : List (JSString × α) :=
  o.filter (fun e => decide (e.1 ≠ k))

/-- The numeric value of a run of decimal digits. -/
def digitsValue (k : JSString) : Nat :=
  k.foldl (fun n c => 10 * n + (c.toNat - 48)) 0

/-- The array index denoted by a property key: the key is the canonical decimal form
(no leading zero) of an integer between `0` and `2 ^ 32 - 2`. -/
def arrayIndex? (k : JSString) : Option Nat :=
  if digitsToEnd k && (k.length = 1 || k.head? != some '0') && digitsValue k < 2 ^ 32 - 1
  then some (digitsValue k) else none

/-- The order of `Object.keys(o)`: array-index keys in ascending numeric order, then the
remaining keys in creation order. -/
def objectKeys {α : Type} (o : List (JSString × α)) : List JSString :=
  let keys := o.map Prod.fst
  (keys.filter (fun k => (arrayIndex? k).isSome)).insertionSort
      (fun a b => digitsValue a ≤ digitsValue b)
    ++ keys.filter (fun k => (arrayIndex? k).isNone)

/-! ## Data model -/

/-- An ingested file: its name and an identifier standing for its content. -/
structure ImageFile where
  name : JSString
  blob : Nat
  deriving DecidableEq, Repr

/-- An entry of a group's `images` array. -/
structure ImageData where
  file : ImageFile
  originalName : JSString
  currentName : JSString
  deriving DecidableEq, Repr

/-- The value stored in `styleCode`. -/
inductive StyleCode where
  /-- A string: a spreadsheet cell or the literal `Unknown`. -/
  | text (s : JSString)
  /-- The member of `Object.prototype` with this name, returned by `excelLookup[fileName]`
  when the name is not an own property of the lookup. -/
  | builtin (name : JSString)
  deriving DecidableEq, Repr

/-- A value of `imageGroups`. -/
structure Group where
  images : List ImageData
  styleCode : StyleCode
  comment : JSString
  deriving DecidableEq, Repr

/-- The global `imageGroups`: own properties in creation order. -/
abbrev ImageGroups := List (JSString × Group)

/-- A spreadsheet cell: a string, or `none` for an `undefined` (missing) cell. -/
abbrev Cell := Option JSString

/-- A spreadsheet row as produced with `header: 1`. -/
abbrev Row := List Cell

/-- The read `row[i]`. -/
def cellAt (row : Row) (i : Nat) : Cell := row[i]?.join

/-- Truthiness of a cell: a non-empty string. -/
def truthy (c : Cell) : Bool :=
  match c with
  | some s => !s.isEmpty
  | none => false

/-! ## `processFiles` -/

/-- The body of `excelData.forEach` in `processFiles`: one row's contribution to
`excelLookup`. -/
def lookupStep (imageNameColumnIndex styleCodeColumnIndex : Nat)
    (excelLookup : List (JSString × JSString)) (row : Row) : List (JSString × JSString) :=
  let imageName := cellAt row imageNameColumnIndex
  let styleCode := cellAt row styleCodeColumnIndex
  if truthy imageName && truthy styleCode then
    match imageName, styleCode with
    | some n, some c => setProp excelLookup n c
    | _, _ => excelLookup
  else excelLookup

/-- The object `excelLookup` built by `processFiles`. -/
def buildLookup (excelData : List Row) (imageNameColumnIndex styleCodeColumnIndex : Nat) :
    List (JSString × JSString) :=
  excelData.foldl (lookupStep imageNameColumnIndex styleCodeColumnIndex) []

/-- The literal `'Unknown'`. -/
def unknownCode : JSString := "Unknown".toList

/-- The value `excelLookup[fileName] || 'Unknown'`. -/
def styleCodeFor (excelLookup : List (JSString × JSString)) (fileName : JSString) : StyleCode :=
  match getProp excelLookup fileName with
  | PropValue.own v => if v.isEmpty then StyleCode.text unknownCode else StyleCode.text v
  | PropValue.inherited name => StyleCode.builtin name
  | PropValue.undefined => StyleCode.text unknownCode

/-- The record pushed for a file. -/
def newImageData (file : ImageFile) : ImageData :=
  { file := file, originalName := file.name, currentName := file.name }

/-- The body of `imageFiles.forEach` in `processFiles`.  The result is `none` when the
body throws: `imageGroups[familyName]` is then a member of `Object.prototype`, which has
no `images` array to push to. -/
def processStep (excelLookup : List (JSString × JSString)) (imageGroups : ImageGroups)
    (file : ImageFile) : Option ImageGroups :=
  let fileName := file.name
  let familyName := familyName fileName
  let imageGroups1 :=
    match getProp imageGroups familyName with
    | PropValue.undefined =>
      imageGroups ++ [(familyName,
        { images := [], styleCode := styleCodeFor excelLookup fileName, comment := [] })]
    | _ => imageGroups
  match getProp imageGroups1 familyName with
  | PropValue.own _ =>
    some (modifyOwn imageGroups1 familyName
      (fun g => { g with images := g.images ++ [newImageData file] }))
  | _ => none

/-- The loop `imageFiles.forEach(...)`: the groups at the end, and whether the loop was
left by an exception. -/
def processLoop (excelLookup : List (JSString × JSString)) :
    List ImageFile → ImageGroups → ImageGroups × Bool
  | [], imageGroups => (imageGroups, false)
  | file :: rest, imageGroups =>
    match processStep excelLookup imageGroups file with
    | some imageGroups1 => processLoop excelLookup rest imageGroups1
    | none => (imageGroups, true)

/-- The handler `processFiles`: the value of the global `imageGroups` when the handler is
left, and whether it was left by an exception. -/
def processFiles (excelData : List Row) (imageNameColumnIndex styleCodeColumnIndex : Nat)
    (imageFiles : List ImageFile) : ImageGroups × Bool :=
  processLoop (buildLookup excelData imageNameColumnIndex styleCodeColumnIndex) imageFiles []

/-! ## Edits -/

/-- The handler `updateGroupComment`. -/
def updateGroupComment (imageGroups : ImageGroups) (familyName comment : JSString) :
    ImageGroups :=
  match getProp imageGroups familyName with
  | PropValue.own _ => modifyOwn imageGroups familyName (fun g => { g with comment := comment })
  | _ => imageGroups

/-- The value `newFileName` of `updateImageName`, a function of the original name and
the typed ordinal only. -/
def newFileName (originalName newNumber : JSString) : JSString :=
  let extension := extensionOf originalName
  let baseName := familyOfBase (nameWithoutExt originalName)
  baseName ++ '_' :: newNumber ++ extension

/-- The update of one record by `updateImageName`. -/
def renameAt (images : List ImageData) (index : Nat) (newNumber : JSString) : List ImageData :=
  match images[index]? with
  | some imageData =>
    images.set index { imageData with currentName := newFileName imageData.originalName newNumber }
  | none => images

/-- The handler `updateImageName`. -/
def updateImageName (imageGroups : ImageGroups) (familyName : JSString) (index : Nat)
    (newNumber : JSString) : ImageGroups :=
  match getProp imageGroups familyName with
  | PropValue.own g =>
    match g.images[index]? with
    | some _ =>
      modifyOwn imageGroups familyName
        (fun g => { g with images := renameAt g.images index newNumber })
    | none => imageGroups
  | _ => imageGroups

/-- The handler `deleteImage`. -/
def deleteImage (imageGroups : ImageGroups) (familyName : JSString) (index : Nat) :
    ImageGroups :=
  match getProp imageGroups familyName with
  | PropValue.own g =>
    match g.images[index]? with
    | some _ =>
      let imageGroups1 := modifyOwn imageGroups familyName
        (fun g => { g with images := g.images.eraseIdx index })
      match getProp imageGroups1 familyName with
      | PropValue.own g1 =>
        if g1.images.length = 0 then deleteOwn imageGroups1 familyName else imageGroups1
      | _ => imageGroups1
    | none => imageGroups
  | _ => imageGroups

/-- A user edit. -/
inductive Edit where
  | comment (familyName comment : JSString)
  | rename (familyName : JSString) (index : Nat) (newNumber : JSString)
  | delete (familyName : JSString) (index : Nat)
  deriving DecidableEq, Repr

/-- The effect of an edit on `imageGroups`. -/
def applyEdit (imageGroups : ImageGroups) : Edit → ImageGroups
  | Edit.comment k c => updateGroupComment imageGroups k c
  | Edit.rename k i n => updateImageName imageGroups k i n
  | Edit.delete k i => deleteImage imageGroups k i

/-- The effect of a sequence of edits. -/
def applyEdits (imageGroups : ImageGroups) (edits : List Edit) : ImageGroups :=
  edits.foldl applyEdit imageGroups

/-! ## Exports -/

/-- The images of the group read by `imageGroups[familyName]` for an enumerated key. -/
def groupImages (imageGroups : ImageGroups) (familyName : JSString) : List ImageData :=
  match getProp imageGroups familyName with
  | PropValue.own g => g.images
  | _ => []

/-- The sequence of calls `zip.file(imageData.currentName, imageData.file)` made by
`downloadImages`; `none` when there is no group and the handler only alerts. -/
def downloadImages (imageGroups : ImageGroups) : Option (List (JSString × ImageFile)) :=
  if (objectKeys imageGroups).length = 0 then none
  else some ((objectKeys imageGroups).flatMap (fun familyName =>
    (groupImages imageGroups familyName).map (fun imageData =>
      (imageData.currentName, imageData.file))))

/-- The value `hasImage` for a group. -/
def hasImage (images : List ImageData) (imageName : Cell) : Bool :=
  images.any (fun img =>
    decide (some img.originalName = imageName) || decide (some img.currentName = imageName))

/-- The loop `for (const familyName of Object.keys(imageGroups))` of `downloadExcel`,
started with `comment = ''`. -/
def findComment (imageGroups : ImageGroups) (imageName : Cell) : List JSString → JSString
  | [] => []
  | familyName :: rest =>
    match getProp imageGroups familyName with
    | PropValue.own group =>
      if hasImage group.images imageName then group.comment
      else findComment imageGroups imageName rest
    | _ => findComment imageGroups imageName rest

/-- The header cell `'Comments'`. -/
def commentsHeader : Cell := some "Comments".toList

/-- The values `newHeaders` and `newData` of `downloadExcel`. -/
def annotatedTable (excelHeaders : Row) (excelData : List Row) (imageNameColumnIndex : Nat)
    (imageGroups : ImageGroups) : Row × List Row :=
  (excelHeaders ++ [commentsHeader],
   excelData.map (fun row =>
     row ++ [some (findComment imageGroups (cellAt row imageNameColumnIndex)
       (objectKeys imageGroups))]))

/-- The handler `downloadExcel`: the table handed to the spreadsheet writer, `none`
when there is no data row and the handler only alerts. -/
def downloadExcel (excelHeaders : Row) (excelData : List Row) (imageNameColumnIndex : Nat)
    (imageGroups : ImageGroups) : Option (Row × List Row) :=
  if excelData.length = 0 then none
  else some (annotatedTable excelHeaders excelData imageNameColumnIndex imageGroups)

/-- The handlers read the globals below. -/
structure Session where
  excelHeaders : Row
  excelData : List Row
  imageNameColumnIndex : Nat
  imageGroups : ImageGroups
  deriving DecidableEq, Repr

/-- One iteration of `excelData.forEach` in `downloadExcel`, as a step on the globals
and on the local `newData`: it looks the comment up in the globals it receives and pushes
one row, a copy of the data row followed by the comment. -/
def excelRowStep (acc : Session × List Row) (row : Row) : Session × List Row :=
  let st := acc.1
  let imageName := cellAt row st.imageNameColumnIndex
  let comment := findComment st.imageGroups imageName (objectKeys st.imageGroups)
  (st, acc.2 ++ [row ++ [some comment]])

/-- The handler `downloadExcel` in state-passing form: the globals when the handler is
left, and the table handed to the spreadsheet writer (`none` when it only alerts). -/
def runDownloadExcel (st : Session) : Session × Option (Row × List Row) :=
  if st.excelData.length = 0 then (st, none)
  else
    let newHeaders := st.excelHeaders ++ [commentsHeader]
    let loop := st.excelData.foldl excelRowStep (st, [])
    (loop.1, some (newHeaders, loop.2))

/-! ## Specification vocabulary -/

/-- The family keys of a list of names in the order of their first occurrence. -/
def firstSeen : List JSString → List JSString
  | [] => []
  | a :: l => a :: (firstSeen l).filter (fun x => decide (x ≠ a))

/-- The family keys met while scanning the ingested files, in first-encounter order. -/
def familiesInOrder (imageFiles : List ImageFile) : List JSString :=
  firstSeen (imageFiles.map (fun f => familyName f.name))

/-- The manifest entries of the groups with the given keys, key by key. -/
def manifestOver (imageGroups : ImageGroups) (keys : List JSString) :
    List (JSString × ImageFile) :=
  keys.flatMap (fun k =>
    (groupImages imageGroups k).map (fun r => (r.currentName, r.file)))

/-- The comment cell read with the group set in creation order: the comment of the first
group of the list that holds a record named by the cell, empty when there is none. -/
def commentInCreationOrder (imageGroups : ImageGroups) (cell : Cell) : JSString :=
  match imageGroups.find? (fun e => hasImage e.2.images cell) with
  | some e => e.2.comment
  | none => []

/-- The group has a record whose original or current name is the cell. -/
def HasRecordNamed (g : Group) (cell : Cell) : Prop :=
  ∃ r ∈ g.images, some r.originalName = cell ∨ some r.currentName = cell

/-- No two records of groups with different keys share a current name. -/
def NoCrossGroupClash (s : ImageGroups) : Prop :=
  ∀ e1 ∈ s, ∀ e2 ∈ s, e1.1 ≠ e2.1 →
    ∀ r1 ∈ e1.2.images, ∀ r2 ∈ e2.2.images, r1.currentName ≠ r2.currentName

instance (s : ImageGroups) : Decidable (NoCrossGroupClash s) := by
  unfold NoCrossGroupClash; infer_instance

/-- Whether an edit, if it is a rename, types a non-empty string of digits. -/
def renameDigits : Edit → Bool
  | Edit.rename _ _ n => digitsToEnd n
  | _ => true

/-- Every rename in the sequence types a non-empty string of digits. -/
def DigitRenames (edits : List Edit) : Prop := ∀ e ∈ edits, renameDigits e = true

instance (edits : List Edit) : Decidable (DigitRenames edits) := by
  unfold DigitRenames; infer_instance

/-- The hypothesis on a file name under which renames stay inside the family: if the
name has a dot, its family key is non-empty and free of line terminators. -/
def SafeName (n : JSString) : Prop :=
  '.' ∈ n → familyName n ≠ [] ∧ ∀ c ∈ familyName n, isLineTerminator c = false

instance (n : JSString) : Decidable (SafeName n) := by
  unfold SafeName; infer_instance

/-- The record condition kept by every reachable state: the record stems from the
family of its group and its current name is the original one or a rename of it by
digits. -/
def GoodRecord (key : JSString) (r : ImageData) : Prop :=
  familyName r.originalName = key ∧
    (r.currentName = r.originalName ∨
      ∃ o, digitsToEnd o = true ∧ r.currentName = newFileName r.originalName o)

/-- Every record of every group is a `GoodRecord` with an ingested original name. -/
def Tracked (names : List JSString) (s : ImageGroups) : Prop :=
  ∀ e ∈ s, ∀ r ∈ e.2.images, r.originalName ∈ names ∧ GoodRecord e.1 r

/-- Builds a file from a name written as a string literal. -/
def mkFile (name : String) (blob : Nat) : ImageFile := { name := name.toList, blob := blob }

/-- The order used to sort array-index keys is total. -/
instance digitsValue_total : IsTotal JSString (fun a b => digitsValue a ≤ digitsValue b) :=
  ⟨fun x y => Nat.le_total (digitsValue x) (digitsValue y)⟩

/-- The order used to sort array-index keys is transitive. -/
instance digitsValue_trans : IsTrans JSString (fun a b => digitsValue a ≤ digitsValue b) :=
  ⟨fun _ _ _ h1 h2 => Nat.le_trans h1 h2⟩

/-- A group set with the family `shirt` of two images and the family `pants` of one. -/
def demoGroups : ImageGroups :=
  [("shirt".toList,
    { images := [newImageData (mkFile "shirt_1.jpg" 0), newImageData (mkFile "shirt_2.jpg" 1)],
      styleCode := StyleCode.text "SH100".toList, comment := [] }),
   ("pants".toList,
    { images := [newImageData (mkFile "pants_1.jpg" 2)],
      styleCode := StyleCode.text "Unknown".toList, comment := [] })]

/-- The group `shirt` of `demoGroups`. -/
def demoShirt : Group :=
  { images := [newImageData (mkFile "shirt_1.jpg" 0), newImageData (mkFile "shirt_2.jpg" 1)],
    styleCode := StyleCode.text "SH100".toList, comment := [] }

/-- The group `pants` of `demoGroups`. -/
def demoPants : Group :=
  { images := [newImageData (mkFile "pants_1.jpg" 2)],
    styleCode := StyleCode.text "Unknown".toList, comment := [] }

/-- The row that `excelLookup` keeps for a name: the last row whose image-name cell is
the name and whose image-name and code cells are both non-empty. -/
def lastMatchingRow (excelData : List Row) (imageNameColumnIndex styleCodeColumnIndex : Nat)
    (name : JSString) : Option Row :=
  excelData.reverse.find? (fun row =>
    decide (cellAt row imageNameColumnIndex = some name) &&
      (truthy (cellAt row imageNameColumnIndex) && truthy (cellAt row styleCodeColumnIndex)))

/-- The code that the grouping is meant to give to a family whose first file has the
given name. -/
def expectedCode (excelData : List Row) (imageNameColumnIndex styleCodeColumnIndex : Nat)
    (name : JSString) : JSString :=
  match lastMatchingRow excelData imageNameColumnIndex styleCodeColumnIndex name with
  | some row => (cellAt row styleCodeColumnIndex).getD []
  | none => unknownCode

/-- The group that the grouping is meant to build for a family key: the files of the
family in ingestion order, the code looked up for the first of them, no comment. -/
def expectedGroup (excelLookup : List (JSString × JSString)) (imageFiles : List ImageFile)
    (key : JSString) : Group :=
  { images := (imageFiles.filter (fun f => decide (familyName f.name = key))).map newImageData,
    styleCode :=
      match imageFiles.find? (fun f => decide (familyName f.name = key)) with
      | some f => styleCodeFor excelLookup f.name
      | none => StyleCode.text unknownCode,
    comment := [] }

/-- The group set that the grouping is meant to build: one group per family key, in
first-encounter order. -/
def expectedGroups (excelLookup : List (JSString × JSString)) (imageFiles : List ImageFile) :
    ImageGroups :=
  (familiesInOrder imageFiles).map (fun k => (k, expectedGroup excelLookup imageFiles k))

/-! ## Lemmas and theorems -/

theorem lastIndex?_eq_none_iff (s : JSString) (c : Char) :
    lastIndex? s c = none ↔ c ∉ s := by
  induction s with
  | nil => simp [lastIndex?]
  | cons x rest ih =>
    unfold lastIndex?
    cases h : lastIndex? rest c with
    | some k =>
      have : ¬ (c ∉ rest) := fun hn => by rw [ih.mpr hn] at h; cases h
      simp only [List.mem_cons, not_or]
      constructor
      · intro h1; cases h1
      · intro h1; exact absurd h1.2 this
    | none =>
      have hr := ih.mp h
      by_cases hx : x = c
      · simp [hx]
      · simp [hx, hr, Ne.symm hx]

theorem lastIndex?_append_cons (b e : JSString) (c : Char) (he : c ∉ e) :
    lastIndex? (b ++ c :: e) c = some b.length := by
  induction b with
  | nil =>
    have := (lastIndex?_eq_none_iff e c).mpr he
    simp [lastIndex?, this]
  | cons x rest ih =>
    simp only [List.cons_append, List.length_cons]
    unfold lastIndex?
    rw [ih]

theorem exists_last_split (s : JSString) (c : Char) (h : c ∈ s) :
    ∃ b e, s = b ++ c :: e ∧ c ∉ e := by
  induction s with
  | nil => simp at h
  | cons x rest ih =>
    by_cases hr : c ∈ rest
    · obtain ⟨b, e, hs, he⟩ := ih hr
      exact ⟨x :: b, e, by simp [hs], he⟩
    · have hx : c = x := by
        rcases List.mem_cons.mp h with h1 | h1
        · exact h1
        · exact absurd h1 hr
      exact ⟨[], rest, by simp [hx], hr⟩

theorem nameWithoutExt_split (b e : JSString) (he : '.' ∉ e) :
    nameWithoutExt (b ++ '.' :: e) = b := by
  simp [nameWithoutExt, lastIndexOf, lastIndex?_append_cons b e '.' he, substring, clampIndex]

theorem extensionOf_split (b e : JSString) (he : '.' ∉ e) :
    extensionOf (b ++ '.' :: e) = '.' :: e := by
  simp [extensionOf, lastIndexOf, lastIndex?_append_cons b e '.' he, substringFrom, clampIndex]

theorem nameWithoutExt_no_dot (s : JSString) (h : '.' ∉ s) : nameWithoutExt s = [] := by
  simp [nameWithoutExt, lastIndexOf, (lastIndex?_eq_none_iff s '.').mpr h, substring, clampIndex]

theorem extensionOf_no_dot (s : JSString) (h : '.' ∉ s) : extensionOf s = s := by
  simp [extensionOf, lastIndexOf, (lastIndex?_eq_none_iff s '.').mpr h, substringFrom,
    clampIndex]

theorem isDigit_ne_underscore (c : Char) (h : isDigit c = true) : c ≠ '_' := by
  rintro rfl; revert h; decide

theorem isDigit_ne_dot (c : Char) (h : isDigit c = true) : c ≠ '.' := by
  rintro rfl; revert h; decide

theorem digitsToEnd_iff (d : JSString) :
    digitsToEnd d = true ↔ d ≠ [] ∧ ∀ c ∈ d, isDigit c = true := by
  cases d <;> simp [digitsToEnd]

theorem underscore_not_mem_of_digits (d : JSString) (h : digitsToEnd d = true) : '_' ∉ d :=
  fun hm => isDigit_ne_underscore _ (((digitsToEnd_iff d).mp h).2 _ hm) rfl

theorem dot_not_mem_of_digits (d : JSString) (h : digitsToEnd d = true) : '.' ∉ d :=
  fun hm => isDigit_ne_dot _ (((digitsToEnd_iff d).mp h).2 _ hm) rfl

theorem underscoreDigitsToEnd_iff (s : JSString) :
    underscoreDigitsToEnd s = true ↔ ∃ d, s = '_' :: d ∧ digitsToEnd d = true := by
  cases s with
  | nil => simp [underscoreDigitsToEnd]
  | cons c rest =>
    simp only [underscoreDigitsToEnd, Bool.and_eq_true, decide_eq_true_eq, List.cons.injEq]
    constructor
    · rintro ⟨rfl, h⟩; exact ⟨rest, ⟨rfl, rfl⟩, h⟩
    · rintro ⟨d, ⟨rfl, rfl⟩, h⟩; exact ⟨rfl, h⟩

/-- Soundness of the family pattern: a match splits the string. -/
theorem matchFamily_sound (s p : JSString) (h : matchFamily s = some p) :
    ∃ d, s = p ++ '_' :: d ∧ p ≠ [] ∧ (∀ c ∈ p, isLineTerminator c = false) ∧
      digitsToEnd d = true := by
  induction s generalizing p with
  | nil => simp [matchFamily] at h
  | cons c rest ih =>
    unfold matchFamily at h
    by_cases hc : isLineTerminator c = true
    · simp [hc] at h
    · simp only [hc, Bool.false_eq_true, if_false] at h
      cases hm : matchFamily rest with
      | some q =>
        rw [hm] at h
        simp only [Option.some.injEq] at h
        subst h
        obtain ⟨d, hs, _, hlt, hd⟩ := ih q hm
        refine ⟨d, by simp [hs], by simp, ?_, hd⟩
        intro x hx
        rcases List.mem_cons.mp hx with rfl | hx
        · simpa using hc
        · exact hlt x hx
      | none =>
        rw [hm] at h
        by_cases hu : underscoreDigitsToEnd rest = true
        · simp only [hu, if_true, Option.some.injEq] at h
          subst h
          obtain ⟨d, rfl, hd⟩ := (underscoreDigitsToEnd_iff rest).mp hu
          refine ⟨d, by simp, by simp, ?_, hd⟩
          intro x hx
          simp only [List.mem_singleton] at hx
          subst hx
          simpa using hc
        · simp [hu] at h

theorem matchFamily_none_of_no_underscore (s : JSString) (h : '_' ∉ s) :
    matchFamily s = none := by
  cases hm : matchFamily s with
  | none => rfl
  | some p =>
    obtain ⟨d, hs, _⟩ := matchFamily_sound s p hm
    exact absurd (by simp [hs]) h

/-- Completeness of the family pattern on names free of line terminators. -/
theorem matchFamily_complete (p d : JSString) (hp : p ≠ [])
    (hlt : ∀ c ∈ p, isLineTerminator c = false) (hd : digitsToEnd d = true) :
    matchFamily (p ++ '_' :: d) = some p := by
  induction p with
  | nil => exact absurd rfl hp
  | cons c rest ih =>
    have hc : isLineTerminator c = false := hlt c (List.mem_cons_self _ _)
    by_cases hr : rest = []
    · subst hr
      have h1 : matchFamily ('_' :: d) = none := by
        unfold matchFamily
        have hd2 : matchFamily d = none :=
          matchFamily_none_of_no_underscore d (underscore_not_mem_of_digits d hd)
        have hu : underscoreDigitsToEnd d = false := by
          cases hu : underscoreDigitsToEnd d with
          | false => rfl
          | true =>
            obtain ⟨e, rfl, _⟩ := (underscoreDigitsToEnd_iff d).mp hu
            exact absurd (List.mem_cons_self _ _) (underscore_not_mem_of_digits _ hd)
        simp [hd2, hu]
      have h2 : underscoreDigitsToEnd ('_' :: d) = true :=
        (underscoreDigitsToEnd_iff _).mpr ⟨d, rfl, hd⟩
      show matchFamily (c :: '_' :: d) = some [c]
      unfold matchFamily
      simp [hc, h1, h2]
    · have := ih hr (fun x hx => hlt x (List.mem_cons_of_mem _ hx))
      show matchFamily (c :: (rest ++ '_' :: d)) = some (c :: rest)
      unfold matchFamily
      simp [hc, this]

theorem matchNumber_sound (s d : JSString) (h : matchNumber s = some d) :
    ∃ q, s = q ++ '_' :: d ∧ digitsToEnd d = true := by
  induction s with
  | nil => simp [matchNumber] at h
  | cons c rest ih =>
    unfold matchNumber at h
    by_cases hc : (decide (c = '_') && digitsToEnd rest) = true
    · simp only [hc, if_true, Option.some.injEq] at h
      subst h
      simp only [Bool.and_eq_true, decide_eq_true_eq] at hc
      exact ⟨[], by simp [hc.1], hc.2⟩
    · simp only [hc, Bool.false_eq_true, if_false] at h
      obtain ⟨q, hs, hd⟩ := ih h
      exact ⟨c :: q, by simp [hs], hd⟩

theorem matchNumber_complete (q d : JSString) (hd : digitsToEnd d = true) :
    matchNumber (q ++ '_' :: d) = some d := by
  induction q with
  | nil => simp [matchNumber, hd]
  | cons c rest ih =>
    show matchNumber (c :: (rest ++ '_' :: d)) = some d
    unfold matchNumber
    have : digitsToEnd (rest ++ '_' :: d) = false := by
      cases hx : digitsToEnd (rest ++ '_' :: d) with
      | false => rfl
      | true => exact absurd (by simp) (underscore_not_mem_of_digits _ hx)
    simp [this, ih]

/-- Two splits of one string at a last occurrence of `c` agree. -/
theorem split_last_unique (c : Char) (a b a1 b1 : JSString) (hb : c ∉ b) (hb1 : c ∉ b1)
    (h : a ++ c :: b = a1 ++ c :: b1) : a = a1 ∧ b = b1 := by
  induction a generalizing a1 with
  | nil =>
    cases a1 with
    | nil => simpa using h
    | cons x t =>
      simp only [List.nil_append, List.cons_append, List.cons.injEq] at h
      exact absurd (by rw [h.2]; simp) hb
  | cons x t ih =>
    cases a1 with
    | nil =>
      simp only [List.nil_append, List.cons_append, List.cons.injEq] at h
      exact absurd (by rw [← h.2]; simp) hb1
    | cons y t1 =>
      simp only [List.cons_append, List.cons.injEq] at h
      obtain ⟨rfl, rfl⟩ := ih t1 h.2
      exact ⟨by rw [h.1], rfl⟩

theorem familyOfBase_nil : familyOfBase [] = [] := rfl

theorem familyName_split (b e : JSString) (he : '.' ∉ e) :
    familyName (b ++ '.' :: e) = familyOfBase b := by
  simp [familyName, nameWithoutExt_split b e he]

theorem familyName_no_dot (s : JSString) (h : '.' ∉ s) : familyName s = [] := by
  simp [familyName, nameWithoutExt_no_dot s h, familyOfBase_nil]

theorem newFileName_split (b e o : JSString) (he : '.' ∉ e) :
    newFileName (b ++ '.' :: e) o = (familyOfBase b ++ '_' :: o) ++ '.' :: e := by
  simp [newFileName, nameWithoutExt_split b e he, extensionOf_split b e he]

theorem newFileName_no_dot (s o : JSString) (h : '.' ∉ s) :
    newFileName s o = '_' :: o ++ s := by
  simp [newFileName, nameWithoutExt_no_dot s h, extensionOf_no_dot s h, familyOfBase_nil]

theorem familyOfBase_complete (p d : JSString) (hp : p ≠ [])
    (hlt : ∀ c ∈ p, isLineTerminator c = false) (hd : digitsToEnd d = true) :
    familyOfBase (p ++ '_' :: d) = p := by
  simp [familyOfBase, matchFamily_complete p d hp hlt hd]

/-- A renamed record keeps the family of its original name, provided that family is
non-empty and free of line terminators whenever the name has a dot. -/
theorem familyName_newFileName (n o : JSString)
    (hsafe : '.' ∈ n → familyName n ≠ [] ∧ ∀ c ∈ familyName n, isLineTerminator c = false)
    (ho : digitsToEnd o = true) : familyName (newFileName n o) = familyName n := by
  by_cases hdot : '.' ∈ n
  · obtain ⟨b, e, rfl, he⟩ := exists_last_split n '.' hdot
    have hs := hsafe hdot
    rw [familyName_split b e he] at hs ⊢
    rw [newFileName_split b e o he, familyName_split _ e he]
    exact familyOfBase_complete _ o hs.1 hs.2 ho
  · rw [newFileName_no_dot n o hdot, familyName_no_dot n hdot]
    apply familyName_no_dot
    intro hm
    simp only [List.cons_append, List.mem_cons, List.mem_append] at hm
    rcases hm with h | h | h
    · exact absurd h (by decide)
    · exact dot_not_mem_of_digits o ho h
    · exact hdot h

/-- Two renamed records with the same new name come from the same family. -/
theorem familyName_eq_of_newFileName_eq (n1 n2 o1 o2 : JSString)
    (h1 : digitsToEnd o1 = true) (h2 : digitsToEnd o2 = true)
    (h : newFileName n1 o1 = newFileName n2 o2) : familyName n1 = familyName n2 := by
  have nodot : ∀ (n o : JSString), digitsToEnd o = true → '.' ∉ n → '.' ∉ '_' :: o ++ n := by
    intro n o ho hn hm
    simp only [List.cons_append, List.mem_cons, List.mem_append] at hm
    rcases hm with h | h | h
    · exact absurd h (by decide)
    · exact dot_not_mem_of_digits o ho h
    · exact hn h
  by_cases hd1 : '.' ∈ n1
  · obtain ⟨b1, e1, rfl, he1⟩ := exists_last_split n1 '.' hd1
    by_cases hd2 : '.' ∈ n2
    · obtain ⟨b2, e2, rfl, he2⟩ := exists_last_split n2 '.' hd2
      rw [newFileName_split b1 e1 o1 he1, newFileName_split b2 e2 o2 he2] at h
      have h3 := (split_last_unique '.' _ e1 _ e2 he1 he2 h).1
      have h4 := (split_last_unique '_' _ o1 _ o2 (underscore_not_mem_of_digits o1 h1)
        (underscore_not_mem_of_digits o2 h2) h3).1
      rw [familyName_split b1 e1 he1, familyName_split b2 e2 he2, h4]
    · rw [newFileName_split b1 e1 o1 he1, newFileName_no_dot n2 o2 hd2] at h
      exact absurd (by rw [← h]; simp) (nodot n2 o2 h2 hd2)
  · by_cases hd2 : '.' ∈ n2
    · obtain ⟨b2, e2, rfl, he2⟩ := exists_last_split n2 '.' hd2
      rw [newFileName_split b2 e2 o2 he2, newFileName_no_dot n1 o1 hd1] at h
      exact absurd (by rw [h]; simp) (nodot n1 o1 h1 hd1)
    · rw [familyName_no_dot n1 hd1, familyName_no_dot n2 hd2]

/-! ### Own properties -/

theorem getOwn_mem {α : Type} (o : List (JSString × α)) (k : JSString) (v : α)
    (h : getOwn o k = some v) : (k, v) ∈ o := by
  induction o with
  | nil => simp [getOwn] at h
  | cons e rest ih =>
    obtain ⟨k1, v1⟩ := e
    unfold getOwn at h
    by_cases hk : k1 = k
    · simp only [hk, if_true, Option.some.injEq] at h
      simp [hk, h]
    · simp only [hk, if_false] at h
      exact List.mem_cons_of_mem _ (ih h)

theorem getOwn_eq_none_iff {α : Type} (o : List (JSString × α)) (k : JSString) :
    getOwn o k = none ↔ k ∉ o.map Prod.fst := by
  induction o with
  | nil => simp [getOwn]
  | cons e rest ih =>
    obtain ⟨k1, v1⟩ := e
    unfold getOwn
    simp only [List.map_cons, List.mem_cons, not_or]
    by_cases hk : k1 = k
    · simp only [hk, if_true]
      constructor
      · intro h; cases h
      · intro h; exact absurd trivial h.1
    · simp only [hk, if_false, ih]
      constructor
      · intro h; exact ⟨fun h2 => hk h2.symm, h⟩
      · intro h; exact h.2

theorem map_fst_modifyOwn {α : Type} (o : List (JSString × α)) (k : JSString) (f : α → α) :
    (modifyOwn o k f).map Prod.fst = o.map Prod.fst := by
  induction o with
  | nil => rfl
  | cons e rest ih =>
    obtain ⟨k1, v1⟩ := e
    unfold modifyOwn
    by_cases hk : k1 = k
    · simp [hk]
    · simp [hk, ih]

theorem mem_modifyOwn {α : Type} (o : List (JSString × α)) (k : JSString) (f : α → α)
    (e : JSString × α) (h : e ∈ modifyOwn o k f) :
    e ∈ o ∨ ∃ v, getOwn o k = some v ∧ e = (k, f v) := by
  induction o with
  | nil => simp [modifyOwn] at h
  | cons e1 rest ih =>
    obtain ⟨k1, v1⟩ := e1
    unfold modifyOwn at h
    by_cases hk : k1 = k
    · simp only [hk, if_true, List.mem_cons] at h
      rcases h with h | h
      · exact Or.inr ⟨v1, by simp [getOwn, hk], h⟩
      · exact Or.inl (List.mem_cons_of_mem _ h)
    · simp only [hk, if_false, List.mem_cons] at h
      rcases h with h | h
      · exact Or.inl (by simp [h])
      · rcases ih h with h2 | ⟨v, hv, he⟩
        · exact Or.inl (List.mem_cons_of_mem _ h2)
        · exact Or.inr ⟨v, by simp [getOwn, hk, hv], he⟩

theorem getOwn_modifyOwn_self {α : Type} (o : List (JSString × α)) (k : JSString) (f : α → α)
    (v : α) (h : getOwn o k = some v) : getOwn (modifyOwn o k f) k = some (f v) := by
  induction o with
  | nil => simp [getOwn] at h
  | cons e rest ih =>
    obtain ⟨k1, v1⟩ := e
    unfold getOwn at h
    unfold modifyOwn
    by_cases hk : k1 = k
    · simp only [hk, if_true, Option.some.injEq] at h
      simp [hk, getOwn, h]
    · simp only [hk, if_false] at h
      simp [hk, getOwn, ih h]

theorem getOwn_modifyOwn_ne {α : Type} (o : List (JSString × α)) (k k1 : JSString)
    (f : α → α) (h : k1 ≠ k) : getOwn (modifyOwn o k f) k1 = getOwn o k1 := by
  induction o with
  | nil => rfl
  | cons e rest ih =>
    obtain ⟨k2, v2⟩ := e
    unfold modifyOwn
    by_cases hk : k2 = k
    · have : k2 ≠ k1 := fun h2 => h (h2 ▸ hk)
      simp [hk, getOwn, this, hk ▸ this]
    · by_cases hk1 : k2 = k1
      · subst hk1
        simp only [hk, if_false, getOwn, if_true]
      · simp only [hk, if_false, getOwn, hk1, ih]

theorem getOwn_deleteOwn_self {α : Type} (o : List (JSString × α)) (k : JSString) :
    getOwn (deleteOwn o k) k = none := by
  rw [getOwn_eq_none_iff]
  intro h
  obtain ⟨e, he, hek⟩ := List.mem_map.mp h
  have := (List.mem_filter.mp he).2
  simp only [decide_eq_true_eq] at this
  exact this hek

theorem getOwn_deleteOwn_ne {α : Type} (o : List (JSString × α)) (k k1 : JSString)
    (h : k1 ≠ k) : getOwn (deleteOwn o k) k1 = getOwn o k1 := by
  induction o with
  | nil => rfl
  | cons e rest ih =>
    obtain ⟨k2, v2⟩ := e
    by_cases hk : k2 = k
    · have h21 : k2 ≠ k1 := fun h2 => h (h2 ▸ hk)
      have : deleteOwn ((k2, v2) :: rest) k = deleteOwn rest k := by
        simp [deleteOwn, hk]
      rw [this, ih]
      simp [getOwn, h21]
    · have : deleteOwn ((k2, v2) :: rest) k = (k2, v2) :: deleteOwn rest k := by
        simp [deleteOwn, hk]
      rw [this]
      by_cases hk1 : k2 = k1
      · simp [getOwn, hk1]
      · simp [getOwn, hk1, ih]

theorem map_fst_deleteOwn {α : Type} (o : List (JSString × α)) (k : JSString) :
    (deleteOwn o k).map Prod.fst = (o.map Prod.fst).filter (fun x => decide (x ≠ k)) := by
  induction o with
  | nil => rfl
  | cons e rest ih =>
    obtain ⟨k2, v2⟩ := e
    by_cases hk : k2 = k
    · simp [deleteOwn, hk, List.filter_map, Function.comp_def]
    · simp [deleteOwn, hk, List.filter_map, Function.comp_def]

theorem getProp_own {α : Type} (o : List (JSString × α)) (k : JSString) (v : α)
    (h : getOwn o k = some v) : getProp o k = PropValue.own v := by
  simp [getProp, h]

theorem getProp_eq_own_iff {α : Type} (o : List (JSString × α)) (k : JSString) (v : α) :
    getProp o k = PropValue.own v ↔ getOwn o k = some v := by
  unfold getProp
  cases h : getOwn o k with
  | some w => simp
  | none => by_cases hk : k ∈ objectPrototypeKeys <;> simp [hk]

theorem tracked_modifyOwn (names : List JSString) (s : ImageGroups) (k : JSString)
    (f : Group → Group) (hs : Tracked names s)
    (hf : ∀ v, (k, v) ∈ s → ∀ r ∈ (f v).images, r.originalName ∈ names ∧ GoodRecord k r) :
    Tracked names (modifyOwn s k f) := by
  intro e he r hr
  rcases mem_modifyOwn s k f e he with h | ⟨v, hv, rfl⟩
  · exact hs e h r hr
  · exact hf v (getOwn_mem s k v hv) r hr

theorem tracked_deleteOwn (names : List JSString) (s : ImageGroups) (k : JSString)
    (hs : Tracked names s) : Tracked names (deleteOwn s k) := by
  intro e he r hr
  exact hs e (List.mem_filter.mp he).1 r hr

theorem tracked_mono (names names1 : List JSString) (s : ImageGroups)
    (h : ∀ n ∈ names, n ∈ names1) (hs : Tracked names s) : Tracked names1 s :=
  fun e he r hr => ⟨h _ (hs e he r hr).1, (hs e he r hr).2⟩

theorem tracked_processStep (L : List (JSString × JSString)) (names : List JSString)
    (s s1 : ImageGroups) (file : ImageFile) (hn : file.name ∈ names) (hs : Tracked names s)
    (h : processStep L s file = some s1) : Tracked names s1 := by
  unfold processStep at h
  simp only at h
  split at h
  · simp only [Option.some.injEq] at h
    subst h
    apply tracked_modifyOwn
    · split
      · intro e he r hr
        rcases List.mem_append.mp he with h1 | h1
        · exact hs e h1 r hr
        · simp only [List.mem_singleton] at h1
          subst h1
          simp at hr
      · exact hs
    · intro v hv r hr
      have hv2 : ∀ r ∈ v.images, r.originalName ∈ names ∧ GoodRecord (familyName file.name) r := by
        intro r hr
        split at hv
        · rcases List.mem_append.mp hv with h1 | h1
          · exact hs _ h1 r hr
          · simp only [List.mem_singleton, Prod.mk.injEq] at h1
            rw [h1.2] at hr
            simp at hr
        · exact hs _ hv r hr
      simp only [List.mem_append, List.mem_singleton] at hr
      rcases hr with hr | rfl
      · exact hv2 r hr
      · exact ⟨hn, rfl, Or.inl rfl⟩
  · cases h

theorem tracked_processLoop (L : List (JSString × JSString)) (names : List JSString)
    (files : List ImageFile) (s : ImageGroups) (hn : ∀ f ∈ files, f.name ∈ names)
    (hs : Tracked names s) : Tracked names (processLoop L files s).1 := by
  induction files generalizing s with
  | nil => exact hs
  | cons f rest ih =>
    unfold processLoop
    cases h : processStep L s f with
    | none => exact hs
    | some s1 =>
      exact ih s1 (fun g hg => hn g (List.mem_cons_of_mem _ hg))
        (tracked_processStep L names s s1 f (hn f (List.mem_cons_self _ _)) hs h)

theorem tracked_processFiles (rows : List Row) (i j : Nat) (files : List ImageFile) :
    Tracked (files.map ImageFile.name) (processFiles rows i j files).1 := by
  apply tracked_processLoop
  · intro f hf; exact List.mem_map_of_mem _ hf
  · intro e he; cases he

theorem tracked_updateGroupComment (names : List JSString) (s : ImageGroups)
    (k c : JSString) (hs : Tracked names s) : Tracked names (updateGroupComment s k c) := by
  unfold updateGroupComment
  split
  · apply tracked_modifyOwn _ _ _ _ hs
    intro v hv r hr
    exact hs _ hv r hr
  · exact hs

theorem mem_renameAt (images : List ImageData) (index : Nat) (n : JSString) (r : ImageData)
    (h : r ∈ renameAt images index n) :
    r ∈ images ∨ ∃ r0 ∈ images, r = { r0 with currentName := newFileName r0.originalName n } := by
  unfold renameAt at h
  split at h
  · rename_i imageData hget
    rcases List.mem_or_eq_of_mem_set h with h1 | h1
    · exact Or.inl h1
    · exact Or.inr ⟨imageData, List.getElem?_mem hget, h1⟩
  · exact Or.inl h

theorem tracked_updateImageName (names : List JSString) (s : ImageGroups)
    (k : JSString) (i : Nat) (n : JSString) (hn : digitsToEnd n = true)
    (hs : Tracked names s) : Tracked names (updateImageName s k i n) := by
  unfold updateImageName
  split
  · split
    · apply tracked_modifyOwn _ _ _ _ hs
      intro v hv r hr
      rcases mem_renameAt _ _ _ _ hr with h1 | ⟨r0, h0, rfl⟩
      · exact hs _ hv r h1
      · have := hs _ hv r0 h0
        exact ⟨this.1, this.2.1, Or.inr ⟨n, hn, rfl⟩⟩
    · exact hs
  · exact hs

theorem tracked_deleteImage (names : List JSString) (s : ImageGroups)
    (k : JSString) (i : Nat) (hs : Tracked names s) : Tracked names (deleteImage s k i) := by
  have h1 : Tracked names (modifyOwn s k
      (fun g => { g with images := g.images.eraseIdx i })) := by
    apply tracked_modifyOwn _ _ _ _ hs
    intro v hv r hr
    exact hs _ hv r (List.mem_of_mem_eraseIdx hr)
  unfold deleteImage
  split
  · split
    · simp only
      split
      · split
        · exact tracked_deleteOwn _ _ _ h1
        · exact h1
      · exact h1
    · exact hs
  · exact hs

theorem tracked_applyEdits (names : List JSString) (edits : List Edit) (s : ImageGroups)
    (hd : DigitRenames edits) (hs : Tracked names s) : Tracked names (applyEdits s edits) := by
  induction edits generalizing s with
  | nil => exact hs
  | cons e rest ih =>
    have hrest : DigitRenames rest := fun x h => hd x (List.mem_cons_of_mem _ h)
    show Tracked names (applyEdits (applyEdit s e) rest)
    apply ih _ hrest
    cases e with
    | comment k c => exact tracked_updateGroupComment names s k c hs
    | rename k i n =>
      exact tracked_updateImageName names s k i n (hd _ (List.mem_cons_self _ _)) hs
    | delete k i => exact tracked_deleteImage names s k i hs

/-- Records of a tracked state with equal current names belong to the same family. -/
theorem goodRecord_same_family (k1 k2 : JSString) (r1 r2 : ImageData)
    (s1 : SafeName r1.originalName) (s2 : SafeName r2.originalName)
    (h1 : GoodRecord k1 r1) (h2 : GoodRecord k2 r2)
    (h : r1.currentName = r2.currentName) : k1 = k2 := by
  obtain ⟨f1, c1⟩ := h1
  obtain ⟨f2, c2⟩ := h2
  rw [← f1, ← f2]
  rcases c1 with c1 | ⟨o1, d1, c1⟩ <;> rcases c2 with c2 | ⟨o2, d2, c2⟩
  · rw [← c1, ← c2, h]
  · rw [← familyName_newFileName _ o2 s2 d2, ← c2, ← h, c1]
  · rw [← familyName_newFileName _ o1 s1 d1, ← c1, h, c2]
  · exact familyName_eq_of_newFileName_eq _ _ o1 o2 d1 d2 (by rw [← c1, ← c2, h])

theorem keys_perm_objectKeys {α : Type} (o : List (JSString × α)) :
    (objectKeys o).Perm (o.map Prod.fst) := by
  unfold objectKeys
  simp only
  refine List.Perm.trans (List.Perm.append_right _ (List.perm_insertionSort _ _)) ?_
  have h := List.filter_append_perm (fun k => (arrayIndex? k).isSome) (o.map Prod.fst)
  have e : (fun k => (arrayIndex? k).isNone) = (fun k => !(arrayIndex? k).isSome) := by
    funext k; cases arrayIndex? k <;> rfl
  rw [e]
  exact h

theorem insertionSort_sublist (l1 l2 : List JSString) (h : l1.Sublist l2) :
    (l1.insertionSort (fun a b => digitsValue a ≤ digitsValue b)).Sublist
      (l2.insertionSort (fun a b => digitsValue a ≤ digitsValue b)) := by
  induction h with
  | slnil => exact List.Sublist.refl _
  | cons a _ ih => exact ih.trans (List.sublist_orderedInsert _ _)
  | cons₂ a _ ih =>
    exact List.Sublist.orderedInsert_sublist _ ih (List.sorted_insertionSort _ _)

theorem objectKeys_sublist_of_keys_sublist {α : Type} (o1 o2 : List (JSString × α))
    (h : (o1.map Prod.fst).Sublist (o2.map Prod.fst)) :
    (objectKeys o1).Sublist (objectKeys o2) := by
  unfold objectKeys
  simp only
  apply List.Sublist.append
  · exact insertionSort_sublist _ _ (h.filter _)
  · exact h.filter _

theorem renameAt_renameAt (images : List ImageData) (i : Nat) (a b : JSString) :
    renameAt (renameAt images i a) i b = renameAt images i b := by
  unfold renameAt
  cases h : images[i]? with
  | none => simp [h]
  | some r =>
    have hi : i < images.length := by
      rcases Nat.lt_or_ge i images.length with h1 | h1
      · exact h1
      · rw [List.getElem?_eq_none h1] at h; cases h
    simp [List.getElem?_set, hi]

theorem modifyOwn_modifyOwn {α : Type} (o : List (JSString × α)) (k : JSString)
    (f1 f2 : α → α) : modifyOwn (modifyOwn o k f1) k f2 = modifyOwn o k (fun v => f2 (f1 v)) := by
  induction o with
  | nil => rfl
  | cons e rest ih =>
    obtain ⟨k1, v1⟩ := e
    by_cases hk : k1 = k
    · simp [modifyOwn, hk]
    · simp [modifyOwn, hk, ih]

theorem updateImageName_eq (gs : ImageGroups) (k : JSString) (g : Group) (i : Nat)
    (r : ImageData) (a : JSString) (hg : getOwn gs k = some g)
    (hr : g.images[i]? = some r) :
    updateImageName gs k i a =
      modifyOwn gs k (fun g => { g with images := renameAt g.images i a }) := by
  unfold updateImageName
  rw [getProp_own gs k g hg]
  simp only [hr]

theorem renameAt_getElem? (images : List ImageData) (i : Nat) (r : ImageData) (a : JSString)
    (hr : images[i]? = some r) :
    (renameAt images i a)[i]? =
      some { r with currentName := newFileName r.originalName a } := by
  have hi : i < images.length := by
    rcases Nat.lt_or_ge i images.length with h1 | h1
    · exact h1
    · rw [List.getElem?_eq_none h1] at hr; cases hr
  unfold renameAt
  simp [hr, List.getElem?_set, hi]

theorem newFileName_eq (n a : JSString) :
    newFileName n a = familyName n ++ '_' :: a ++ extensionOf n := rfl

/-- C3: renaming the record at a valid index of a group sets its current name to
family key of the original name, underscore, the typed ordinal, extension of the
original name; the result depends on the original name only, so renaming twice with one
ordinal equals renaming once and renaming with A then B equals renaming with B; the
original name, the file, the other records, the comment and code of the group, the
other groups and the key order are unchanged; `shirt_2.jpg` with ordinal `5` becomes
`shirt_5.jpg`. -/
theorem updateImageName_spec (gs : ImageGroups) (k : JSString) (g : Group) (i : Nat)
    (r : ImageData) (a b : JSString) (hg : getOwn gs k = some g)
    (hr : g.images[i]? = some r) :
    (∃ g1, getOwn (updateImageName gs k i a) k = some g1 ∧
      g1.images[i]? = some
        { file := r.file, originalName := r.originalName,
          currentName := familyName r.originalName ++ '_' :: a ++ extensionOf r.originalName } ∧
      g1.images.length = g.images.length ∧
      (∀ j, j ≠ i → g1.images[j]? = g.images[j]?) ∧
      g1.comment = g.comment ∧ g1.styleCode = g.styleCode) ∧
    updateImageName (updateImageName gs k i a) k i a = updateImageName gs k i a ∧
    updateImageName (updateImageName gs k i a) k i b = updateImageName gs k i b ∧
    (∀ k1, k1 ≠ k → getOwn (updateImageName gs k i a) k1 = getOwn gs k1) ∧
    (updateImageName gs k i a).map Prod.fst = gs.map Prod.fst ∧
    newFileName "shirt_2.jpg".toList "5".toList = "shirt_5.jpg".toList := by
  have twice : ∀ c : JSString,
      updateImageName (updateImageName gs k i a) k i c = updateImageName gs k i c := by
    intro c
    rw [updateImageName_eq gs k g i r a hg hr, updateImageName_eq gs k g i r c hg hr]
    rw [updateImageName_eq _ k _ i _ c (getOwn_modifyOwn_self gs k _ g hg)
      (renameAt_getElem? g.images i r a hr)]
    rw [modifyOwn_modifyOwn]
    congr 1
    funext v
    simp only [renameAt_renameAt]
  refine ⟨?_, twice a, twice b, ?_, ?_, by decide⟩
  · rw [updateImageName_eq gs k g i r a hg hr]
    refine ⟨_, getOwn_modifyOwn_self gs k _ g hg, ?_, ?_, ?_, rfl, rfl⟩
    · simp only
      rw [renameAt_getElem? g.images i r a hr]
      rfl
    · simp only [renameAt, hr, List.length_set]
    · intro j hj
      simp only [renameAt, hr]
      rw [List.getElem?_set_ne (Ne.symm hj)]
  · intro k1 hk1
    rw [updateImageName_eq gs k g i r a hg hr]
    exact getOwn_modifyOwn_ne gs k k1 _ hk1
  · rw [updateImageName_eq gs k g i r a hg hr]
    exact map_fst_modifyOwn gs k _

/-- C4: deleting the record at a valid index of a group removes exactly that record and
keeps the others in order; when it was the only record the group leaves the group set;
every other group is unchanged, the remaining keys keep their creation order and their
`Object.keys` order, and a group set without empty groups stays without empty groups. -/
theorem deleteImage_spec (gs : ImageGroups) (k : JSString) (g : Group) (i : Nat)
    (hg : getOwn gs k = some g) (hi : i < g.images.length) :
    (g.images.length = 1 →
      getOwn (deleteImage gs k i) k = none ∧
      (deleteImage gs k i).map Prod.fst =
        (gs.map Prod.fst).filter (fun x => decide (x ≠ k))) ∧
    (g.images.length ≠ 1 →
      getOwn (deleteImage gs k i) k = some { g with images := g.images.eraseIdx i } ∧
      (deleteImage gs k i).map Prod.fst = gs.map Prod.fst) ∧
    (∀ k1, k1 ≠ k → getOwn (deleteImage gs k i) k1 = getOwn gs k1) ∧
    ((deleteImage gs k i).map Prod.fst).Sublist (gs.map Prod.fst) ∧
    (objectKeys (deleteImage gs k i)).Sublist (objectKeys gs) ∧
    ((∀ e ∈ gs, e.2.images ≠ []) → ∀ e ∈ deleteImage gs k i, e.2.images ≠ []) := by
  have hsome : g.images[i]? = some (g.images[i]) := List.getElem?_eq_getElem hi
  have hown := getOwn_modifyOwn_self gs k
    (fun g => { g with images := g.images.eraseIdx i }) g hg
  have hlen : (g.images.eraseIdx i).length = g.images.length - 1 :=
    List.length_eraseIdx_of_lt hi
  by_cases h1 : g.images.length = 1
  · have hdel : deleteImage gs k i = deleteOwn (modifyOwn gs k
        (fun g => { g with images := g.images.eraseIdx i })) k := by
      unfold deleteImage
      rw [getProp_own gs k g hg]
      simp only [hsome]
      rw [getProp_own _ k _ hown]
      simp [hlen, h1]
    have hkeys : (deleteImage gs k i).map Prod.fst =
        (gs.map Prod.fst).filter (fun x => decide (x ≠ k)) := by
      rw [hdel, map_fst_deleteOwn, map_fst_modifyOwn]
    have hsub : ((deleteImage gs k i).map Prod.fst).Sublist (gs.map Prod.fst) := by
      rw [hkeys]; exact List.filter_sublist _
    refine ⟨fun _ => ⟨?_, hkeys⟩, fun h => absurd h1 h, ?_, hsub,
      objectKeys_sublist_of_keys_sublist _ _ hsub, ?_⟩
    · rw [hdel]; exact getOwn_deleteOwn_self _ k
    · intro k1 hk1
      rw [hdel, getOwn_deleteOwn_ne _ k k1 hk1, getOwn_modifyOwn_ne gs k k1 _ hk1]
    · intro hne e he
      rw [hdel] at he
      have he2 := List.mem_filter.mp he
      have hk : e.1 ≠ k := by simpa using he2.2
      rcases mem_modifyOwn gs k _ e he2.1 with h | ⟨v, _, rfl⟩
      · exact hne e h
      · exact absurd rfl hk
  · have hdel : deleteImage gs k i = modifyOwn gs k
        (fun g => { g with images := g.images.eraseIdx i }) := by
      unfold deleteImage
      rw [getProp_own gs k g hg]
      simp only [hsome]
      rw [getProp_own _ k _ hown]
      have : g.images.length - 1 ≠ 0 := by omega
      simp [hlen, this]
    have hkeys : (deleteImage gs k i).map Prod.fst = gs.map Prod.fst := by
      rw [hdel, map_fst_modifyOwn]
    have hsub : ((deleteImage gs k i).map Prod.fst).Sublist (gs.map Prod.fst) := by
      rw [hkeys]
    refine ⟨fun h => absurd h h1, fun _ => ⟨?_, hkeys⟩, ?_, hsub,
      objectKeys_sublist_of_keys_sublist _ _ hsub, ?_⟩
    · rw [hdel]; exact hown
    · intro k1 hk1
      rw [hdel, getOwn_modifyOwn_ne gs k k1 _ hk1]
    · intro hne e he
      rw [hdel] at he
      rcases mem_modifyOwn gs k _ e he with h | ⟨v, hv, rfl⟩
      · exact hne e h
      · rw [hg] at hv
        simp only [Option.some.injEq] at hv
        subst hv
        intro hnil
        have := congrArg List.length hnil
        simp only [hlen, List.length_nil] at this
        omega

theorem hasImage_iff (g : Group) (cell : Cell) :
    hasImage g.images cell = true ↔ HasRecordNamed g cell := by
  simp [hasImage, HasRecordNamed, List.any_eq_true]

theorem findComment_none (gs : ImageGroups) (cell : Cell) (keys : List JSString)
    (h : ∀ k ∈ keys, ∀ g, getOwn gs k = some g → ¬ HasRecordNamed g cell) :
    findComment gs cell keys = [] := by
  induction keys with
  | nil => rfl
  | cons k rest ih =>
    have ihr := ih (fun k1 hk1 => h k1 (List.mem_cons_of_mem _ hk1))
    unfold findComment
    cases hp : getProp gs k with
    | own g =>
      have hno := h k (List.mem_cons_self _ _) g ((getProp_eq_own_iff gs k g).mp hp)
      have : hasImage g.images cell = false := by
        cases hh : hasImage g.images cell with
        | false => rfl
        | true => exact absurd ((hasImage_iff g cell).mp hh) hno
      simp [this, ihr]
    | inherited n => simpa using ihr
    | undefined => simpa using ihr

theorem findComment_first (gs : ImageGroups) (cell : Cell) (pre : List JSString)
    (k : JSString) (post : List JSString) (g : Group) (hg : getOwn gs k = some g)
    (hm : HasRecordNamed g cell)
    (hpre : ∀ k1 ∈ pre, ∀ g1, getOwn gs k1 = some g1 → ¬ HasRecordNamed g1 cell) :
    findComment gs cell (pre ++ k :: post) = g.comment := by
  induction pre with
  | nil =>
    show findComment gs cell (k :: post) = g.comment
    unfold findComment
    rw [getProp_own gs k g hg]
    simp [(hasImage_iff g cell).mpr hm]
  | cons k0 rest ih =>
    have ihr := ih (fun k1 hk1 => hpre k1 (List.mem_cons_of_mem _ hk1))
    show findComment gs cell (k0 :: (rest ++ k :: post)) = g.comment
    unfold findComment
    cases hp : getProp gs k0 with
    | own g0 =>
      have hno := hpre k0 (List.mem_cons_self _ _) g0 ((getProp_eq_own_iff gs k0 g0).mp hp)
      have : hasImage g0.images cell = false := by
        cases hh : hasImage g0.images cell with
        | false => rfl
        | true => exact absurd ((hasImage_iff g0 cell).mp hh) hno
      simp [this, ihr]
    | inherited n => simpa using ihr
    | undefined => simpa using ihr

theorem firstSeen_cons (a : JSString) (l : List JSString) :
    firstSeen (a :: l) = a :: (firstSeen l).filter (fun x => decide (x ≠ a)) := rfl

theorem firstSeen_subset (l : List JSString) : ∀ x ∈ firstSeen l, x ∈ l := by
  induction l with
  | nil => intro x hx; cases hx
  | cons a rest ih =>
    intro x hx
    unfold firstSeen at hx
    rcases List.mem_cons.mp hx with h | h
    · exact h ▸ List.mem_cons_self _ _
    · exact List.mem_cons_of_mem _ (ih x (List.mem_filter.mp h).1)

theorem firstSeen_nodup (l : List JSString) : (firstSeen l).Nodup := by
  induction l with
  | nil => exact List.nodup_nil
  | cons a rest ih =>
    unfold firstSeen
    refine List.nodup_cons.mpr ⟨?_, ih.filter _⟩
    intro h
    have := (List.mem_filter.mp h).2
    simp at this

theorem firstSeen_of_nodup (l : List JSString) (h : l.Nodup) : firstSeen l = l := by
  induction l with
  | nil => rfl
  | cons a rest ih =>
    have h2 := List.nodup_cons.mp h
    unfold firstSeen
    rw [ih h2.2]
    congr 1
    apply List.filter_eq_self.mpr
    intro x hx
    have : x ≠ a := fun e => h2.1 (e ▸ hx)
    simpa using this

theorem firstSeen_append (a b : List JSString) :
    firstSeen (a ++ b) = firstSeen a ++ (firstSeen b).filter (fun x => decide (x ∉ a)) := by
  induction a with
  | nil => simp [firstSeen]
  | cons x rest ih =>
    show firstSeen (x :: (rest ++ b)) = _
    rw [firstSeen_cons, firstSeen_cons, ih, List.filter_append, List.filter_filter]
    simp only [List.cons_append, List.cons.injEq, true_and, List.append_cancel_left_eq]
    apply List.filter_congr
    intro y _
    simp only [List.mem_cons, not_or, Bool.decide_and, Bool.and_comm]

theorem firstSeen_append_cons_of_mem (a b : List JSString) (x : JSString) (hx : x ∈ a) :
    firstSeen (a ++ x :: b) = firstSeen (a ++ b) := by
  rw [firstSeen_append, firstSeen_append]
  congr 1
  rw [firstSeen_cons, List.filter_cons]
  simp only [hx, not_true_eq_false, decide_False, Bool.false_eq_true, if_false,
    List.filter_filter]
  apply List.filter_congr
  intro y _
  by_cases hy : y ∈ a
  · simp [hy]
  · have : y ≠ x := fun e => hy (e ▸ hx)
    simp [hy, this]

theorem sublist_firstSeen_append (a b : List JSString) (h : a.Nodup) :
    a.Sublist (firstSeen (a ++ b)) := by
  rw [firstSeen_append, firstSeen_of_nodup a h]
  exact List.sublist_append_left _ _

theorem keys_processStep (L : List (JSString × JSString)) (s s1 : ImageGroups)
    (file : ImageFile) (h : processStep L s file = some s1) :
    (familyName file.name ∈ s.map Prod.fst ∧ s1.map Prod.fst = s.map Prod.fst) ∨
    (familyName file.name ∉ s.map Prod.fst ∧
      s1.map Prod.fst = s.map Prod.fst ++ [familyName file.name]) := by
  unfold processStep at h
  simp only at h
  split at h
  · simp only [Option.some.injEq] at h
    subst h
    rw [map_fst_modifyOwn]
    cases ho : getOwn s (familyName file.name) with
    | some g =>
      left
      refine ⟨?_, ?_⟩
      · have := getOwn_mem s _ g ho
        exact List.mem_map_of_mem Prod.fst this
      · rw [getProp_own s _ g ho]
    | none =>
      have hnot := (getOwn_eq_none_iff s _).mp ho
      by_cases hk : familyName file.name ∈ objectPrototypeKeys
      · exfalso
        rename_i v hv
        have hp : getProp s (familyName file.name) =
            PropValue.inherited (familyName file.name) := by simp [getProp, ho, hk]
        rw [hp] at hv
        simp only at hv
        rw [hp] at hv
        cases hv
      · right
        have hp : getProp s (familyName file.name) = PropValue.undefined := by
          simp [getProp, ho, hk]
        rw [hp]
        exact ⟨hnot, by simp⟩
  · cases h

theorem keys_processLoop (L : List (JSString × JSString)) (files : List ImageFile)
    (s : ImageGroups) (hs : (s.map Prod.fst).Nodup) :
    ((processLoop L files s).1.map Prod.fst).Sublist
      (firstSeen (s.map Prod.fst ++ files.map (fun f => familyName f.name))) := by
  induction files generalizing s with
  | nil =>
    simp only [processLoop, List.map_nil, List.append_nil]
    rw [firstSeen_of_nodup _ hs]
  | cons f rest ih =>
    unfold processLoop
    cases h : processStep L s f with
    | none => exact sublist_firstSeen_append _ _ hs
    | some s1 =>
      simp only [List.map_cons]
      rcases keys_processStep L s s1 f h with ⟨hmem, hk⟩ | ⟨hnot, hk⟩
      · have := ih s1 (by rw [hk]; exact hs)
        rw [hk] at this
        rw [firstSeen_append_cons_of_mem _ _ _ hmem]
        exact this
      · have hnd : (s1.map Prod.fst).Nodup := by
          rw [hk]
          exact List.Nodup.append hs (List.nodup_singleton _)
            (by
              intro y hy hy2
              simp only [List.mem_singleton] at hy2
              subst hy2
              exact hnot hy)
        have := ih s1 hnd
        rw [hk, List.append_assoc] at this
        exact this

theorem keys_processFiles (rows : List Row) (i j : Nat) (files : List ImageFile) :
    ((processFiles rows i j files).1.map Prod.fst).Sublist (familiesInOrder files) := by
  have := keys_processLoop (buildLookup rows i j) files [] List.nodup_nil
  simpa [processFiles, familiesInOrder] using this

theorem keys_applyEdit (s : ImageGroups) (e : Edit) :
    ((applyEdit s e).map Prod.fst).Sublist (s.map Prod.fst) := by
  cases e with
  | comment k c =>
    show ((updateGroupComment s k c).map Prod.fst).Sublist _
    unfold updateGroupComment
    split
    · rw [map_fst_modifyOwn]
    · exact List.Sublist.refl _
  | rename k i n =>
    show ((updateImageName s k i n).map Prod.fst).Sublist _
    unfold updateImageName
    split
    · split
      · rw [map_fst_modifyOwn]
      · exact List.Sublist.refl _
    · exact List.Sublist.refl _
  | delete k i =>
    show ((deleteImage s k i).map Prod.fst).Sublist _
    unfold deleteImage
    split
    · split
      · simp only
        split
        · split
          · rw [map_fst_deleteOwn, map_fst_modifyOwn]
            exact List.filter_sublist _
          · rw [map_fst_modifyOwn]
        · rw [map_fst_modifyOwn]
      · exact List.Sublist.refl _
    · exact List.Sublist.refl _

theorem keys_applyEdits (s : ImageGroups) (edits : List Edit) :
    ((applyEdits s edits).map Prod.fst).Sublist (s.map Prod.fst) := by
  induction edits generalizing s with
  | nil => exact List.Sublist.refl _
  | cons e rest ih => exact (ih (applyEdit s e)).trans (keys_applyEdit s e)

theorem digitsValue_append_singleton (k : JSString) (c : Char) :
    digitsValue (k ++ [c]) = 10 * digitsValue k + (c.toNat - 48) := by
  simp [digitsValue, List.foldl_append]

theorem digitsValue_eq_ofDigits (k : JSString) :
    digitsValue k = Nat.ofDigits 10 ((k.map (fun c => c.toNat - 48)).reverse) := by
  induction k using List.reverseRecOn with
  | nil => rfl
  | append_singleton l c ih =>
    rw [digitsValue_append_singleton, ih]
    simp [Nat.ofDigits_cons]
    omega

theorem map_digit_inj (a b : JSString) (ha : ∀ c ∈ a, isDigit c = true)
    (hb : ∀ c ∈ b, isDigit c = true)
    (h : a.map (fun c => c.toNat - 48) = b.map (fun c => c.toNat - 48)) : a = b := by
  have back : ∀ l : JSString, (∀ c ∈ l, isDigit c = true) →
      (l.map (fun c => c.toNat - 48)).map (fun d => Char.ofNat (d + 48)) = l := by
    intro l hl
    rw [List.map_map]
    conv_rhs => rw [← List.map_id l]
    apply List.map_congr_left
    intro c hc
    have := hl c hc
    simp only [isDigit, Bool.and_eq_true, decide_eq_true_eq] at this
    simp only [Function.comp, id]
    rw [Nat.sub_add_cancel this.1, Char.ofNat_toNat]
  rw [← back a ha, ← back b hb, h]

theorem arrayIndex?_inj (a b : JSString) (v : Nat) (ha : arrayIndex? a = some v)
    (hb : arrayIndex? b = some v) : a = b := by
  have key : ∀ k : JSString, arrayIndex? k = some v →
      (∀ c ∈ k, isDigit c = true) ∧ k ≠ [] ∧ digitsValue k = v ∧
      (k = ['0'] ∨ Nat.digits 10 v = (k.map (fun c => c.toNat - 48)).reverse) := by
    intro k hk
    unfold arrayIndex? at hk
    split at hk
    · rename_i hc
      simp only [Option.some.injEq] at hk
      simp only [Bool.and_eq_true, Bool.or_eq_true, decide_eq_true_eq] at hc
      obtain ⟨⟨hd, hcanon⟩, _⟩ := hc
      have hd2 := (digitsToEnd_iff k).mp hd
      refine ⟨hd2.2, hd2.1, hk, ?_⟩
      cases k with
      | nil => exact absurd rfl hd2.1
      | cons c rest =>
        by_cases hc0 : c = '0'
        · left
          rcases hcanon with h1 | h1
          · simp only [List.length_cons, Nat.add_left_eq_self, List.length_eq_zero] at h1
            rw [hc0, h1]
          · simp [hc0] at h1
        · right
          rw [← hk, digitsValue_eq_ofDigits]
          apply Nat.digits_ofDigits 10 (by decide)
          · intro l hl
            simp only [List.mem_reverse, List.mem_map] at hl
            obtain ⟨x, hx, rfl⟩ := hl
            have := hd2.2 x hx
            simp only [isDigit, Bool.and_eq_true, decide_eq_true_eq] at this
            omega
          · intro hne
            simp only [List.map_cons, List.reverse_cons, List.getLast_append_singleton]
            have := hd2.2 c (List.mem_cons_self _ _)
            simp only [isDigit, Bool.and_eq_true, decide_eq_true_eq] at this
            intro h0
            apply hc0
            have h48 : c.toNat = 48 := by omega
            rw [← Char.ofNat_toNat c, h48]
    · cases hk
  obtain ⟨da, na, va, ca⟩ := key a ha
  obtain ⟨db, nb, vb, cb⟩ := key b hb
  rcases ca with ca | ca <;> rcases cb with cb | cb
  · rw [ca, cb]
  · exfalso
    have hv : v = 0 := by rw [← va, ca]; rfl
    rw [hv] at cb
    simp only [Nat.digits_zero] at cb
    have := congrArg List.length cb
    simp only [List.length_nil, List.length_reverse, List.length_map] at this
    exact nb (List.length_eq_zero.mp this.symm)
  · exfalso
    have hv : v = 0 := by rw [← vb, cb]; rfl
    rw [hv] at ca
    simp only [Nat.digits_zero] at ca
    have := congrArg List.length ca
    simp only [List.length_nil, List.length_reverse, List.length_map] at this
    exact na (List.length_eq_zero.mp this.symm)
  · apply map_digit_inj a b da db
    have := ca.symm.trans cb
    exact List.reverse_injective this

theorem arrayIndex?_of_isSome (k : JSString) (h : (arrayIndex? k).isSome = true) :
    arrayIndex? k = some (digitsValue k) := by
  cases hk : arrayIndex? k with
  | none => rw [hk] at h; cases h
  | some v =>
    have hv : digitsValue k = v := by
      unfold arrayIndex? at hk
      split at hk
      · exact Option.some.inj hk
      · cases hk
    rw [hv]

/-- A duplicate-free list of array-index keys sorted by value is strictly ascending. -/
theorem indexKeys_strictly_sorted (l : List JSString) (hnd : l.Nodup)
    (hidx : ∀ k ∈ l, (arrayIndex? k).isSome = true)
    (hs : l.Sorted (fun a b => digitsValue a ≤ digitsValue b)) :
    l.Sorted (fun a b => digitsValue a < digitsValue b) := by
  have h2 : l.Pairwise (fun a b => digitsValue a ≤ digitsValue b ∧ a ≠ b) :=
    List.Pairwise.and hs hnd
  refine List.Pairwise.imp_of_mem ?_ h2
  intro a b ha hb hab
  rcases Nat.lt_or_ge (digitsValue a) (digitsValue b) with h | h
  · exact h
  · exfalso
    have he : digitsValue a = digitsValue b := Nat.le_antisymm hab.1 h
    apply hab.2
    apply arrayIndex?_inj a b (digitsValue a) (arrayIndex?_of_isSome a (hidx a ha))
    rw [he]
    exact arrayIndex?_of_isSome b (hidx b hb)

theorem objectKeys_length {α : Type} (o : List (JSString × α)) :
    (objectKeys o).length = o.length := by
  rw [(keys_perm_objectKeys o).length_eq, List.length_map]

/-- C8 (amended): after any ingestion and any edits, the archive manifest lists the
(current name, file) pairs group by group and, inside a group, in image-list order; the
groups whose family key is an array index come first, in ascending numeric order, and
the other groups follow in the order in which their family keys were first encountered
while scanning the ingested files. -/
theorem downloadImages_order (rows : List Row) (i j : Nat) (files : List ImageFile)
    (edits : List Edit) :
    ∃ indexKeys otherKeys : List JSString,
      downloadImages (applyEdits (processFiles rows i j files).1 edits) =
        (if applyEdits (processFiles rows i j files).1 edits = [] then none
         else some (manifestOver (applyEdits (processFiles rows i j files).1 edits)
           (indexKeys ++ otherKeys))) ∧
      (indexKeys ++ otherKeys).Perm
        ((applyEdits (processFiles rows i j files).1 edits).map Prod.fst) ∧
      ((applyEdits (processFiles rows i j files).1 edits).map Prod.fst).Nodup ∧
      (∀ k ∈ indexKeys, (arrayIndex? k).isSome = true) ∧
      indexKeys.Sorted (fun a b => digitsValue a ≤ digitsValue b) ∧
      (∀ k ∈ otherKeys, arrayIndex? k = none) ∧
      otherKeys.Sublist (familiesInOrder files) := by
  have hsub : ((applyEdits (processFiles rows i j files).1 edits).map Prod.fst).Sublist
      (familiesInOrder files) :=
    (keys_applyEdits _ edits).trans (keys_processFiles rows i j files)
  generalize applyEdits (processFiles rows i j files).1 edits = s at hsub
  refine ⟨((s.map Prod.fst).filter (fun k => (arrayIndex? k).isSome)).insertionSort
      (fun a b => digitsValue a ≤ digitsValue b),
    (s.map Prod.fst).filter (fun k => (arrayIndex? k).isNone), ?_, keys_perm_objectKeys s,
    hsub.nodup (firstSeen_nodup _), ?_, List.sorted_insertionSort _ _, ?_,
    (List.filter_sublist _).trans hsub⟩
  · unfold downloadImages
    rw [objectKeys_length]
    cases s with
    | nil => simp
    | cons e rest => simp [manifestOver, objectKeys]
  · intro k hk
    exact (List.mem_filter.mp ((List.mem_insertionSort _).mp hk)).2
  · intro k hk
    have := (List.mem_filter.mp hk).2
    cases h : arrayIndex? k with
    | none => rfl
    | some v => rw [h] at this; cases this

/-- C9 (amended): assume that the ingested file names are pairwise distinct, that every
rename types a non-empty string of digits, and that every ingested file name that has a
dot has a non-empty family key free of line terminators; then no state reached from
`processFiles` by comment edits, renames and deletions holds two records of different
groups with the same current name. -/
theorem no_cross_group_clash (rows : List Row) (i j : Nat) (files : List ImageFile)
    (edits : List Edit) (_hdistinct : (files.map ImageFile.name).Nodup)
    (hdigits : DigitRenames edits) (hsafe : ∀ f ∈ files, SafeName f.name) :
    NoCrossGroupClash (applyEdits (processFiles rows i j files).1 edits) := by
  have ht := tracked_applyEdits (files.map ImageFile.name) edits _ hdigits
    (tracked_processFiles rows i j files)
  have safe : ∀ n ∈ files.map ImageFile.name, SafeName n := by
    intro n hn
    obtain ⟨f, hf, rfl⟩ := List.mem_map.mp hn
    exact hsafe f hf
  intro e1 h1 e2 h2 hne r1 hr1 r2 hr2 heq
  have t1 := ht e1 h1 r1 hr1
  have t2 := ht e2 h2 r2 hr2
  exact hne (goodRecord_same_family e1.1 e2.1 r1 r2 (safe _ t1.1) (safe _ t2.1) t1.2 t2.2 heq)

/-- C1 (failing input): with the files `shirt_1.jpg`, `constructor.jpg`, `pants_1.jpg`
the loop of `processFiles` throws at the second file, whose family key `constructor`
names a member of `Object.prototype`; one group exists afterwards although the files
have three distinct family keys, and the second and third file are in no group. -/
theorem processFiles_throws_on_inherited_key :
    processFiles [] 0 1
        [mkFile "shirt_1.jpg" 0, mkFile "constructor.jpg" 1, mkFile "pants_1.jpg" 2] =
      ([("shirt".toList,
         { images := [newImageData (mkFile "shirt_1.jpg" 0)],
           styleCode := StyleCode.text "Unknown".toList, comment := [] })], true) ∧
    familiesInOrder
        [mkFile "shirt_1.jpg" 0, mkFile "constructor.jpg" 1, mkFile "pants_1.jpg" 2] =
      ["shirt".toList, "constructor".toList, "pants".toList] ∧
    processFiles [] 0 1 [mkFile "constructor.jpg" 0] = ([], true) := by
  decide

/-- C2 (failing input): the base name `a`, line feed, `b_7` is `p_d` with `p` the three
characters before the underscore and `d = 7`, yet the family pattern does not match it,
so the family key is the whole base name, while the ordinal pattern does find `7`. -/
theorem familyOfBase_line_terminator :
    familyOfBase "a\nb_7".toList = "a\nb_7".toList ∧
    ordinalOfBase "a\nb_7".toList = "7".toList ∧
    familyName "a\nb_7.jpg".toList = "a\nb_7".toList ∧
    newFileName "a\nb_7.jpg".toList "5".toList = "a\nb_7_5.jpg".toList := by
  decide

/-- C6 (failing input): for the single file named `constructor` and an empty table, the
read `excelLookup[fileName]` returns the inherited `Object.prototype.constructor`, so
the group's code is that function and not the string `Unknown`. -/
theorem styleCode_inherited_member :
    processFiles [] 0 1 [mkFile "constructor" 0] =
      ([([], { images := [newImageData (mkFile "constructor" 0)],
               styleCode := StyleCode.builtin "constructor".toList, comment := [] })],
       false) ∧
    styleCodeFor (buildLookup [] 0 1) "constructor".toList ≠
      StyleCode.text "Unknown".toList := by
  decide

/-- C7 (failing input): for the name `photo`, which has no dot, grouping and renaming
derive the empty base name and take the whole name as extension, whereas the utilities
`removeFileExtension` and `getFileExtension` return `photo` and the empty string. -/
theorem no_dot_base_and_extension :
    nameWithoutExt "photo".toList = [] ∧
    extensionOf "photo".toList = "photo".toList ∧
    familyName "photo".toList = [] ∧
    newFileName "photo".toList "5".toList = "_5photo".toList ∧
    removeFileExtension "photo".toList = "photo".toList ∧
    getFileExtension "photo".toList = [] := by
  decide

/-- C8 (counterexample): for the files `10_1.jpg`, `2_1.jpg` and no edit, the families
are first encountered in the order `10`, `2`, but the manifest lists `2_1.jpg` first. -/
theorem downloadImages_not_first_encounter_order :
    familiesInOrder [mkFile "10_1.jpg" 0, mkFile "2_1.jpg" 1] =
      ["10".toList, "2".toList] ∧
    downloadImages (applyEdits
        (processFiles [] 0 1 [mkFile "10_1.jpg" 0, mkFile "2_1.jpg" 1]).1 []) =
      some [("2_1.jpg".toList, mkFile "2_1.jpg" 1), ("10_1.jpg".toList, mkFile "10_1.jpg" 0)] ∧
    downloadImages (applyEdits
        (processFiles [] 0 1 [mkFile "10_1.jpg" 0, mkFile "2_1.jpg" 1]).1 []) ≠
      some (manifestOver (applyEdits
          (processFiles [] 0 1 [mkFile "10_1.jpg" 0, mkFile "2_1.jpg" 1]).1 [])
        (familiesInOrder [mkFile "10_1.jpg" 0, mkFile "2_1.jpg" 1])) := by
  decide

/-- C9 (counterexample): the files `.jpg` and `_5.jpg` have distinct names and fall
into the groups with keys empty string and `_5`; renaming the first with the ordinal
`5` gives it the current name `_5.jpg`, the name of the record of the other group. -/
theorem cross_group_clash_example :
    ([mkFile ".jpg" 0, mkFile "_5.jpg" 1].map ImageFile.name).Nodup ∧
    DigitRenames [Edit.rename [] 0 "5".toList] ∧
    (applyEdits (processFiles [] 0 1 [mkFile ".jpg" 0, mkFile "_5.jpg" 1]).1
        [Edit.rename [] 0 "5".toList]).map
      (fun e => (e.1, e.2.images.map ImageData.currentName)) =
      [([], ["_5.jpg".toList]), ("_5".toList, ["_5.jpg".toList])] ∧
    ¬ NoCrossGroupClash
      (applyEdits (processFiles [] 0 1 [mkFile ".jpg" 0, mkFile "_5.jpg" 1]).1
        [Edit.rename [] 0 "5".toList]) := by
  decide

/-- C10 (failing input): with the headers `Image`, `Style` and the data row
`shirt_1.jpg` whose trailing cell is missing, the new headers have three cells and the
output row two: the comment sits at index 1, under `Style`, not under `Comments`. -/
theorem short_row_comment_column :
    (annotatedTable [some "Image".toList, some "Style".toList]
        [[some "shirt_1.jpg".toList]] 0
        (updateGroupComment (processFiles [] 0 1 [mkFile "shirt_1.jpg" 0]).1
          "shirt".toList "nice".toList)) =
      ([some "Image".toList, some "Style".toList, some "Comments".toList],
       [[some "shirt_1.jpg".toList, some "nice".toList]]) := by
  decide

/-- On a base name `p_d` whose part `p` is non-empty and free of line terminators the
family key is `p` and the ordinal is `d`. -/
theorem family_and_ordinal_of_suffixed (p d : JSString) (hp : p ≠ [])
    (hlt : ∀ c ∈ p, isLineTerminator c = false) (hd : digitsToEnd d = true) :
    familyOfBase (p ++ '_' :: d) = p ∧ ordinalOfBase (p ++ '_' :: d) = d := by
  refine ⟨familyOfBase_complete p d hp hlt hd, ?_⟩
  simp [ordinalOfBase, matchNumber_complete p d hd]

/-- On a base name that does not end with an underscore and digits the family key is
the base name and the ordinal is `1`. -/
theorem family_and_ordinal_of_unsuffixed (b : JSString)
    (h : ¬ ∃ q d, b = q ++ '_' :: d ∧ digitsToEnd d = true) :
    familyOfBase b = b ∧ ordinalOfBase b = ['1'] := by
  constructor
  · unfold familyOfBase
    cases hm : matchFamily b with
    | none => rfl
    | some p =>
      obtain ⟨d, hb, _, _, hd⟩ := matchFamily_sound b p hm
      exact absurd ⟨p, d, hb, hd⟩ h
  · unfold ordinalOfBase
    cases hm : matchNumber b with
    | none => rfl
    | some d =>
      obtain ⟨q, hb, hd⟩ := matchNumber_sound b d hm
      exact absurd ⟨q, d, hb, hd⟩ h

/-- For a name with a dot, the base name is what precedes the last dot and the
extension runs from that dot to the end. -/
theorem base_and_extension_of_dotted (n : JSString) (h : '.' ∈ n) :
    ∃ b e, n = b ++ '.' :: e ∧ '.' ∉ e ∧ nameWithoutExt n = b ∧ extensionOf n = '.' :: e := by
  obtain ⟨b, e, rfl, he⟩ := exists_last_split n '.' h
  exact ⟨b, e, rfl, he, nameWithoutExt_split b e he, extensionOf_split b e he⟩

/-- Witness of `updateImageName_spec`: the second image of `shirt` renamed with the
ordinals `5` and `7`. -/
theorem updateImageName_spec_witness :
    getOwn demoGroups "shirt".toList = some demoShirt ∧
    demoShirt.images[1]? = some (newImageData (mkFile "shirt_2.jpg" 1)) ∧
    ((∃ g1, getOwn (updateImageName demoGroups "shirt".toList 1 "5".toList) "shirt".toList =
        some g1 ∧
      g1.images[1]? = some
        { file := mkFile "shirt_2.jpg" 1, originalName := "shirt_2.jpg".toList,
          currentName := familyName "shirt_2.jpg".toList ++ '_' :: "5".toList ++
            extensionOf "shirt_2.jpg".toList } ∧
      g1.images.length = demoShirt.images.length ∧
      (∀ j, j ≠ 1 → g1.images[j]? = demoShirt.images[j]?) ∧
      g1.comment = demoShirt.comment ∧ g1.styleCode = demoShirt.styleCode) ∧
    updateImageName (updateImageName demoGroups "shirt".toList 1 "5".toList)
        "shirt".toList 1 "5".toList =
      updateImageName demoGroups "shirt".toList 1 "5".toList ∧
    updateImageName (updateImageName demoGroups "shirt".toList 1 "5".toList)
        "shirt".toList 1 "7".toList =
      updateImageName demoGroups "shirt".toList 1 "7".toList ∧
    (∀ k1, k1 ≠ "shirt".toList →
      getOwn (updateImageName demoGroups "shirt".toList 1 "5".toList) k1 =
        getOwn demoGroups k1) ∧
    (updateImageName demoGroups "shirt".toList 1 "5".toList).map Prod.fst =
      demoGroups.map Prod.fst ∧
    newFileName "shirt_2.jpg".toList "5".toList = "shirt_5.jpg".toList) :=
  ⟨by decide, by decide,
    updateImageName_spec demoGroups "shirt".toList demoShirt 1
      (newImageData (mkFile "shirt_2.jpg" 1)) "5".toList "7".toList (by decide) (by decide)⟩

/-- Witness of `deleteImage_spec`: the only image of `pants` is deleted. -/
theorem deleteImage_spec_witness :
    getOwn demoGroups "pants".toList = some demoPants ∧
    0 < demoPants.images.length ∧
    ((demoPants.images.length = 1 →
      getOwn (deleteImage demoGroups "pants".toList 0) "pants".toList = none ∧
      (deleteImage demoGroups "pants".toList 0).map Prod.fst =
        (demoGroups.map Prod.fst).filter (fun x => decide (x ≠ "pants".toList))) ∧
    (demoPants.images.length ≠ 1 →
      getOwn (deleteImage demoGroups "pants".toList 0) "pants".toList =
        some { demoPants with images := demoPants.images.eraseIdx 0 } ∧
      (deleteImage demoGroups "pants".toList 0).map Prod.fst = demoGroups.map Prod.fst) ∧
    (∀ k1, k1 ≠ "pants".toList →
      getOwn (deleteImage demoGroups "pants".toList 0) k1 = getOwn demoGroups k1) ∧
    ((deleteImage demoGroups "pants".toList 0).map Prod.fst).Sublist
      (demoGroups.map Prod.fst) ∧
    (objectKeys (deleteImage demoGroups "pants".toList 0)).Sublist (objectKeys demoGroups) ∧
    ((∀ e ∈ demoGroups, e.2.images ≠ []) →
      ∀ e ∈ deleteImage demoGroups "pants".toList 0, e.2.images ≠ [])) :=
  ⟨by decide, by decide,
    deleteImage_spec demoGroups "pants".toList demoPants 0 (by decide) (by decide)⟩

/-- Witness of `no_cross_group_clash`: `shirt_1.jpg` and `pants_1.jpg`, the first
renamed with the ordinal `5`. -/
theorem no_cross_group_clash_witness :
    ([mkFile "shirt_1.jpg" 0, mkFile "pants_1.jpg" 1].map ImageFile.name).Nodup ∧
    DigitRenames [Edit.rename "shirt".toList 0 "5".toList] ∧
    (∀ f ∈ [mkFile "shirt_1.jpg" 0, mkFile "pants_1.jpg" 1], SafeName f.name) ∧
    NoCrossGroupClash
      (applyEdits (processFiles [] 0 1 [mkFile "shirt_1.jpg" 0, mkFile "pants_1.jpg" 1]).1
        [Edit.rename "shirt".toList 0 "5".toList]) :=
  ⟨by decide, by decide, by decide,
    no_cross_group_clash [] 0 1 [mkFile "shirt_1.jpg" 0, mkFile "pants_1.jpg" 1]
      [Edit.rename "shirt".toList 0 "5".toList] (by decide) (by decide) (by decide)⟩

/-! ### The grouping computed when no exception is thrown -/

theorem getOwn_append_singleton {α : Type} (o : List (JSString × α)) (k n : JSString) (v : α) :
    getOwn (o ++ [(k, v)]) n =
      match getOwn o n with
      | some w => some w
      | none => if k = n then some v else none := by
  induction o with
  | nil => simp [getOwn]
  | cons e rest ih =>
    obtain ⟨k1, v1⟩ := e
    by_cases hk : k1 = n
    · simp [getOwn, hk]
    · show getOwn ((k1, v1) :: (rest ++ [(k, v)])) n = _
      simp only [getOwn, hk, if_false, ih]

theorem getOwn_setProp {α : Type} (o : List (JSString × α)) (k n : JSString) (v : α)
    (hn : n ≠ "__proto__".toList) :
    getOwn (setProp o k v) n = if n = k then some v else getOwn o n := by
  unfold setProp
  cases ho : getOwn o k with
  | some w =>
    simp only
    by_cases hnk : n = k
    · subst hnk
      simp [getOwn_modifyOwn_self o n _ w ho]
    · simp [hnk, getOwn_modifyOwn_ne o k n _ hnk]
  | none =>
    simp only
    by_cases hk : k = "__proto__".toList
    · have hnk : n ≠ k := fun h => hn (h.trans hk)
      simp only [hk, if_true]
      rw [if_neg (fun h => hn h)]
    · simp only [hk, if_false]
      rw [getOwn_append_singleton]
      by_cases hnk : n = k
      · subst hnk
        simp [ho]
      · have hn2 : ¬ k = n := fun h => hnk h.symm
        cases getOwn o n <;> simp [hnk, hn2]

theorem buildLookup_append (rows : List Row) (row : Row) (i j : Nat) :
    buildLookup (rows ++ [row]) i j = lookupStep i j (buildLookup rows i j) row := by
  simp [buildLookup, List.foldl_append]

theorem lastMatchingRow_append (rows : List Row) (row : Row) (i j : Nat) (n : JSString) :
    lastMatchingRow (rows ++ [row]) i j n =
      if (decide (cellAt row i = some n) && (truthy (cellAt row i) && truthy (cellAt row j)))
      then some row else lastMatchingRow rows i j n := by
  unfold lastMatchingRow
  rw [List.reverse_append, List.reverse_singleton, List.singleton_append, List.find?_cons]
  cases (decide (cellAt row i = some n) &&
    (truthy (cellAt row i) && truthy (cellAt row j))) <;> rfl

/-- The own property of `excelLookup` for a name is the code cell of the last row whose
image-name cell is the name and whose two cells are non-empty. -/
theorem getOwn_buildLookup (rows : List Row) (i j : Nat) (n : JSString)
    (hn : n ≠ "__proto__".toList) :
    getOwn (buildLookup rows i j) n =
      match lastMatchingRow rows i j n with
      | some row => cellAt row j
      | none => none := by
  induction rows using List.reverseRecOn with
  | nil => rfl
  | append_singleton rows row ih =>
    rw [buildLookup_append, lastMatchingRow_append]
    unfold lookupStep
    simp only
    cases hi : cellAt row i with
    | none => simp [truthy, ih]
    | some a =>
      cases hj : cellAt row j with
      | none => simp [truthy, ih]
      | some c =>
        by_cases ht : (truthy (some a) && truthy (some c)) = true
        · simp only [ht, if_true, Bool.and_true]
          rw [getOwn_setProp _ _ _ _ hn]
          by_cases hna : n = a
          · subst hna
            simp [hj]
          · have : ¬ a = n := fun h => hna h.symm
            simp [hna, this, ih]
        · simp only [ht, Bool.and_false, Bool.false_eq_true, if_false, ih]

theorem lastMatchingRow_truthy (rows : List Row) (i j : Nat) (n : JSString) (row : Row)
    (h : lastMatchingRow rows i j n = some row) :
    cellAt row i = some n ∧ truthy (cellAt row j) = true := by
  unfold lastMatchingRow at h
  have := List.find?_some h
  simp only [Bool.and_eq_true, decide_eq_true_eq] at this
  exact ⟨this.1, this.2.2⟩

/-- For a file name that is not a member of `Object.prototype`, the code given to a new
group is the code cell of the last matching row, and `Unknown` when there is none. -/
theorem styleCodeFor_buildLookup (rows : List Row) (i j : Nat) (n : JSString)
    (hn : n ∉ objectPrototypeKeys) :
    styleCodeFor (buildLookup rows i j) n = StyleCode.text (expectedCode rows i j n) := by
  have hp : n ≠ "__proto__".toList := by
    intro h
    apply hn
    rw [h]
    decide
  unfold styleCodeFor getProp expectedCode
  rw [getOwn_buildLookup rows i j n hp]
  cases hl : lastMatchingRow rows i j n with
  | none => simp [hn]
  | some row =>
    have ht := (lastMatchingRow_truthy rows i j n row hl).2
    cases hc : cellAt row j with
    | none => rw [hc] at ht; simp [truthy] at ht
    | some c =>
      rw [hc] at ht
      simp only [truthy, Bool.not_eq_true'] at ht
      have hne : c ≠ [] := by
        intro h
        rw [h] at ht
        cases ht
      simp [hc, hne]

theorem mem_firstSeen (l : List JSString) (x : JSString) : x ∈ firstSeen l ↔ x ∈ l := by
  constructor
  · exact firstSeen_subset l x
  · intro h
    induction l with
    | nil => cases h
    | cons a rest ih =>
      rw [firstSeen_cons]
      by_cases hx : x = a
      · rw [hx]; exact List.mem_cons_self _ _
      · rcases List.mem_cons.mp h with h1 | h1
        · exact absurd h1 hx
        · exact List.mem_cons_of_mem _ (List.mem_filter.mpr ⟨ih h1, by simpa using hx⟩)

theorem firstSeen_append_singleton (l : List JSString) (x : JSString) :
    firstSeen (l ++ [x]) = if x ∈ l then firstSeen l else firstSeen l ++ [x] := by
  rw [firstSeen_append]
  have h1 : firstSeen [x] = [x] := rfl
  rw [h1]
  by_cases hx : x ∈ l
  · simp [hx]
  · simp [hx]

theorem mem_familiesInOrder (files : List ImageFile) (k : JSString) :
    k ∈ familiesInOrder files ↔ ∃ f ∈ files, familyName f.name = k := by
  unfold familiesInOrder
  rw [mem_firstSeen, List.mem_map]

theorem familiesInOrder_append_singleton (files : List ImageFile) (f : ImageFile) :
    familiesInOrder (files ++ [f]) =
      if familyName f.name ∈ familiesInOrder files then familiesInOrder files
      else familiesInOrder files ++ [familyName f.name] := by
  unfold familiesInOrder
  rw [List.map_append, List.map_singleton, firstSeen_append_singleton]
  simp only [mem_firstSeen]

theorem getOwn_map_mk {α : Type} (l : List JSString) (G : JSString → α) (k : JSString) :
    getOwn (l.map (fun x => (x, G x))) k = if k ∈ l then some (G k) else none := by
  induction l with
  | nil => rfl
  | cons a rest ih =>
    by_cases ha : a = k
    · simp [getOwn, ha]
    · have : ¬ k = a := fun h => ha h.symm
      simp [getOwn, ha, ih, this]

theorem modifyOwn_map_mk {α : Type} (l : List JSString) (G : JSString → α) (k : JSString)
    (f : α → α) (hl : l.Nodup) :
    modifyOwn (l.map (fun x => (x, G x))) k f =
      l.map (fun x => (x, if x = k then f (G x) else G x)) := by
  induction l with
  | nil => rfl
  | cons a rest ih =>
    have h2 := List.nodup_cons.mp hl
    by_cases ha : a = k
    · simp only [List.map_cons, modifyOwn, ha, if_true, List.cons.injEq, true_and]
      apply List.map_congr_left
      intro x hx
      have : x ≠ k := fun h => h2.1 (ha ▸ h ▸ hx)
      simp [this]
    · simp only [List.map_cons, modifyOwn, ha, if_false, ih h2.2]

theorem modifyOwn_append_singleton {α : Type} (o : List (JSString × α)) (k : JSString)
    (v : α) (f : α → α) (hk : k ∉ o.map Prod.fst) :
    modifyOwn (o ++ [(k, v)]) k f = o ++ [(k, f v)] := by
  induction o with
  | nil => simp [modifyOwn]
  | cons e rest ih =>
    obtain ⟨k1, v1⟩ := e
    simp only [List.map_cons, List.mem_cons, not_or] at hk
    have h1 : ¬ k1 = k := fun h => hk.1 h.symm
    show modifyOwn ((k1, v1) :: (rest ++ [(k, v)])) k f = _
    simp only [modifyOwn, h1, if_false, ih hk.2, List.cons_append]

theorem expectedGroup_append_of_ne (L : List (JSString × JSString)) (files : List ImageFile)
    (f : ImageFile) (k : JSString) (h : familyName f.name ≠ k) :
    expectedGroup L (files ++ [f]) k = expectedGroup L files k := by
  unfold expectedGroup
  simp [List.filter_append, List.find?_append, h]

theorem expectedGroup_append_of_mem (L : List (JSString × JSString)) (files : List ImageFile)
    (f : ImageFile) (hk : familyName f.name ∈ familiesInOrder files) :
    expectedGroup L (files ++ [f]) (familyName f.name) =
      { expectedGroup L files (familyName f.name) with
        images := (expectedGroup L files (familyName f.name)).images ++ [newImageData f] } := by
  obtain ⟨g, hg, hfam⟩ := (mem_familiesInOrder files _).mp hk
  unfold expectedGroup
  have hsome : (files.find? (fun x => decide (familyName x.name = familyName f.name))).isSome
      = true := by
    rw [List.find?_isSome]
    exact ⟨g, hg, by simpa using hfam⟩
  cases hfind : files.find? (fun x => decide (familyName x.name = familyName f.name)) with
  | none => rw [hfind] at hsome; cases hsome
  | some x => simp [List.filter_append, List.find?_append, hfind]

theorem expectedGroup_append_of_not_mem (L : List (JSString × JSString))
    (files : List ImageFile) (f : ImageFile) (hk : familyName f.name ∉ familiesInOrder files) :
    expectedGroup L (files ++ [f]) (familyName f.name) =
      { images := [newImageData f], styleCode := styleCodeFor L f.name, comment := [] } := by
  have hno : ∀ x ∈ files, ¬ familyName x.name = familyName f.name :=
    fun x hx h => hk ((mem_familiesInOrder files _).mpr ⟨x, hx, h⟩)
  have hfilter : files.filter (fun x => decide (familyName x.name = familyName f.name)) = [] := by
    apply List.filter_eq_nil_iff.mpr
    intro x hx
    simpa using hno x hx
  have hfind : files.find? (fun x => decide (familyName x.name = familyName f.name)) = none := by
    apply List.find?_eq_none.mpr
    intro x hx
    simpa using hno x hx
  unfold expectedGroup
  simp [List.filter_append, List.find?_append, hfilter, hfind]

theorem familiesInOrder_nodup (files : List ImageFile) : (familiesInOrder files).Nodup :=
  firstSeen_nodup _

theorem processStep_expectedGroups (L : List (JSString × JSString)) (files : List ImageFile)
    (f : ImageFile) (hf : familyName f.name ∉ objectPrototypeKeys) :
    processStep L (expectedGroups L files) f = some (expectedGroups L (files ++ [f])) := by
  unfold processStep
  simp only
  by_cases hk : familyName f.name ∈ familiesInOrder files
  · have hown : getOwn (expectedGroups L files) (familyName f.name) =
        some (expectedGroup L files (familyName f.name)) := by
      unfold expectedGroups
      rw [getOwn_map_mk]
      simp [hk]
    rw [getProp_own _ _ _ hown]
    simp only
    rw [getProp_own _ _ _ hown]
    simp only [Option.some.injEq]
    unfold expectedGroups
    rw [modifyOwn_map_mk _ _ _ _ (familiesInOrder_nodup files),
      familiesInOrder_append_singleton, if_pos hk]
    apply List.map_congr_left
    intro x _
    by_cases hx : x = familyName f.name
    · subst hx
      simp only [if_true, Prod.mk.injEq, true_and]
      rw [expectedGroup_append_of_mem L files f hk]
    · simp only [hx, if_false, Prod.mk.injEq, true_and]
      rw [expectedGroup_append_of_ne L files f x (Ne.symm hx)]
  · have hkeys : (expectedGroups L files).map Prod.fst = familiesInOrder files := by
      unfold expectedGroups
      rw [List.map_map]
      exact List.map_id _
    have hnone : getOwn (expectedGroups L files) (familyName f.name) = none := by
      rw [getOwn_eq_none_iff, hkeys]
      exact hk
    have hp : getProp (expectedGroups L files) (familyName f.name) = PropValue.undefined := by
      simp [getProp, hnone, hf]
    rw [hp]
    simp only
    have hown : getOwn (expectedGroups L files ++ [(familyName f.name,
        ({ images := [], styleCode := styleCodeFor L f.name, comment := [] } : Group))])
        (familyName f.name) =
        some { images := [], styleCode := styleCodeFor L f.name, comment := [] } := by
      rw [getOwn_append_singleton, hnone]
      simp
    rw [getProp_own _ _ _ hown]
    simp only [Option.some.injEq]
    rw [modifyOwn_append_singleton _ _ _ _ (by rw [hkeys]; exact hk)]
    unfold expectedGroups
    rw [familiesInOrder_append_singleton, if_neg hk, List.map_append, List.map_singleton,
      expectedGroup_append_of_not_mem L files f hk]
    simp only [List.nil_append]
    congr 1
    apply List.map_congr_left
    intro x hx
    have hne : familyName f.name ≠ x := fun h => hk (h ▸ hx)
    rw [expectedGroup_append_of_ne L files f x hne]

theorem processLoop_expectedGroups (L : List (JSString × JSString))
    (done rest : List ImageFile) (h : ∀ f ∈ rest, familyName f.name ∉ objectPrototypeKeys) :
    processLoop L rest (expectedGroups L done) = (expectedGroups L (done ++ rest), false) := by
  induction rest generalizing done with
  | nil => simp [processLoop]
  | cons f rest ih =>
    unfold processLoop
    rw [processStep_expectedGroups L done f (h f (List.mem_cons_self _ _))]
    simp only
    rw [ih (done ++ [f]) (fun g hg => h g (List.mem_cons_of_mem _ hg))]
    simp

/-- When no family key of an ingested file names a member of `Object.prototype`,
`processFiles` ends without exception and builds one group per family key, in
first-encounter order, holding the files of the family in ingestion order as records
with both names equal to the file name, the code looked up for the first file of the
family, and the empty comment. -/
theorem processFiles_eq_expectedGroups (rows : List Row) (i j : Nat) (files : List ImageFile)
    (h : ∀ f ∈ files, familyName f.name ∉ objectPrototypeKeys) :
    processFiles rows i j files = (expectedGroups (buildLookup rows i j) files, false) := by
  have := processLoop_expectedGroups (buildLookup rows i j) [] files h
  simpa [processFiles, expectedGroups, familiesInOrder, firstSeen] using this

/-- When no key is an array index, `Object.keys` lists the keys in creation order. -/
theorem objectKeys_eq_keys_of_no_index {α : Type} (o : List (JSString × α))
    (h : ∀ k ∈ o.map Prod.fst, arrayIndex? k = none) : objectKeys o = o.map Prod.fst := by
  unfold objectKeys
  simp only
  have h1 : (o.map Prod.fst).filter (fun k => (arrayIndex? k).isSome) = [] := by
    apply List.filter_eq_nil_iff.mpr
    intro k hk
    rw [h k hk]
    simp
  have h2 : (o.map Prod.fst).filter (fun k => (arrayIndex? k).isNone) = o.map Prod.fst := by
    apply List.filter_eq_self.mpr
    intro k hk
    rw [h k hk]
    rfl
  rw [h1, h2]
  rfl

/-- Every output row of `downloadExcel` is one cell longer than its data row, and the
new header row is one cell longer than the header row: the comment cell is under the
`Comments` header exactly for the rows that have as many cells as the header row. -/
theorem annotatedTable_lengths (excelHeaders : Row) (excelData : List Row)
    (imageNameColumnIndex : Nat) (imageGroups : ImageGroups) :
    (annotatedTable excelHeaders excelData imageNameColumnIndex imageGroups).1.length =
      excelHeaders.length + 1 ∧
    (annotatedTable excelHeaders excelData imageNameColumnIndex imageGroups).2.map List.length =
      excelData.map (fun row => row.length + 1) := by
  simp [annotatedTable, Function.comp_def]

theorem foldl_excelRowStep (st : Session) (rows : List Row) (acc : List Row) :
    rows.foldl excelRowStep (st, acc) =
      (st, acc ++ rows.map (fun row =>
        row ++ [some (findComment st.imageGroups (cellAt row st.imageNameColumnIndex)
          (objectKeys st.imageGroups))])) := by
  induction rows generalizing acc with
  | nil => simp
  | cons row rest ih =>
    rw [List.foldl_cons]
    show List.foldl excelRowStep (st, acc ++ [row ++ [some (findComment st.imageGroups
      (cellAt row st.imageNameColumnIndex) (objectKeys st.imageGroups))]]) rest = _
    rw [ih]
    simp

theorem runDownloadExcel_eq (st : Session) :
    runDownloadExcel st =
      (st, downloadExcel st.excelHeaders st.excelData st.imageNameColumnIndex
        st.imageGroups) := by
  unfold runDownloadExcel downloadExcel annotatedTable
  by_cases h : st.excelData.length = 0
  · simp [h]
  · simp only [h, if_false, foldl_excelRowStep, List.nil_append]

theorem objectKeys_own {α : Type} (o : List (JSString × α)) (k : JSString)
    (h : k ∈ objectKeys o) : ∃ v, getOwn o k = some v := by
  have hk : k ∈ o.map Prod.fst := (keys_perm_objectKeys o).mem_iff.mp h
  cases hg : getOwn o k with
  | some v => exact ⟨v, rfl⟩
  | none => exact absurd hk ((getOwn_eq_none_iff o k).mp hg)

/-- C5 (amended): the table built by `downloadExcel` has the original headers followed
by `Comments` and one output row per data row, in order, made of the cells of the row
followed by one comment cell; that cell is the comment of the first group, in the order
of `Object.keys(imageGroups)`, holding a record whose original or current name is the
image-name cell of the row, and the empty string when no group holds such a record.
That order lists every group once: the groups whose family key is an array index
first, in ascending numeric order, then the other groups in creation order, which for a
group set built by `processFiles` and edits is the order in which the family keys were
first encountered.  The handler leaves the globals as they were, so running it again
returns the same table. -/
theorem downloadExcel_spec (excelHeaders : Row) (excelData : List Row)
    (imageNameColumnIndex : Nat) (imageGroups : ImageGroups) :
    downloadExcel excelHeaders excelData imageNameColumnIndex imageGroups =
      (if excelData = [] then none
       else some (annotatedTable excelHeaders excelData imageNameColumnIndex imageGroups)) ∧
    (annotatedTable excelHeaders excelData imageNameColumnIndex imageGroups).1 =
      excelHeaders ++ [some "Comments".toList] ∧
    (∃ commentOf : Row → JSString,
      (annotatedTable excelHeaders excelData imageNameColumnIndex imageGroups).2 =
        excelData.map (fun row => row ++ [some (commentOf row)]) ∧
      ∀ row,
        (∀ pre k post g, objectKeys imageGroups = pre ++ k :: post →
          getOwn imageGroups k = some g →
          HasRecordNamed g (cellAt row imageNameColumnIndex) →
          (∀ k1 ∈ pre, ∀ g1, getOwn imageGroups k1 = some g1 →
            ¬ HasRecordNamed g1 (cellAt row imageNameColumnIndex)) →
          commentOf row = g.comment) ∧
        ((∀ k ∈ objectKeys imageGroups, ∀ g, getOwn imageGroups k = some g →
            ¬ HasRecordNamed g (cellAt row imageNameColumnIndex)) →
          commentOf row = [])) ∧
    (objectKeys imageGroups).Perm (imageGroups.map Prod.fst) ∧
    (∀ k ∈ objectKeys imageGroups, ∃ g, getOwn imageGroups k = some g) ∧
    (∃ indexKeys : List JSString,
      objectKeys imageGroups =
        indexKeys ++ (imageGroups.map Prod.fst).filter (fun k => (arrayIndex? k).isNone) ∧
      indexKeys.Perm ((imageGroups.map Prod.fst).filter (fun k => (arrayIndex? k).isSome)) ∧
      indexKeys.Sorted (fun a b => digitsValue a ≤ digitsValue b) ∧
      ((imageGroups.map Prod.fst).Nodup →
        indexKeys.Sorted (fun a b => digitsValue a < digitsValue b))) ∧
    (∀ (rows : List Row) (i j : Nat) (files : List ImageFile) (edits : List Edit),
      imageGroups = applyEdits (processFiles rows i j files).1 edits →
      (imageGroups.map Prod.fst).Sublist (familiesInOrder files)) ∧
    (∀ st : Session,
      (runDownloadExcel st).1 = st ∧
      (runDownloadExcel st).2 =
        downloadExcel st.excelHeaders st.excelData st.imageNameColumnIndex st.imageGroups ∧
      (runDownloadExcel (runDownloadExcel st).1).2 = (runDownloadExcel st).2) := by
  refine ⟨?_, rfl, ⟨fun row => findComment imageGroups (cellAt row imageNameColumnIndex)
    (objectKeys imageGroups), rfl, ?_⟩, keys_perm_objectKeys imageGroups,
    objectKeys_own imageGroups, ?_, ?_, ?_⟩
  · unfold downloadExcel
    cases excelData <;> simp
  · intro row
    refine ⟨?_, findComment_none imageGroups _ _⟩
    intro pre k post g hk hg hm hpre
    rw [hk]
    exact findComment_first imageGroups _ pre k post g hg hm hpre
  · refine ⟨((imageGroups.map Prod.fst).filter (fun k => (arrayIndex? k).isSome)).insertionSort
      (fun a b => digitsValue a ≤ digitsValue b), rfl, List.perm_insertionSort _ _,
      List.sorted_insertionSort _ _, ?_⟩
    intro hnd
    apply indexKeys_strictly_sorted _ _ _ (List.sorted_insertionSort _ _)
    · exact (List.perm_insertionSort _ _).nodup_iff.mpr (hnd.filter _)
    · intro k hk
      exact (List.mem_filter.mp ((List.mem_insertionSort _).mp hk)).2
  · intro rows i j files edits h
    rw [h]
    exact (keys_applyEdits _ edits).trans (keys_processFiles rows i j files)
  · intro st
    rw [runDownloadExcel_eq]
    refine ⟨rfl, rfl, ?_⟩
    rw [runDownloadExcel_eq]

/-- C5 (counterexample): the files `2_a.jpg`, `2_1.jpg` give the groups `2_a` and `2`,
created in that order, with the comments `A` and `B`; after renaming `2_1.jpg` with the
ordinal `a` both groups hold a record named `2_a.jpg`.  For the row `2_a.jpg` the first
such group in first-encounter order is `2_a`, with comment `A`, but `downloadExcel`
writes `B`, the comment of the group `2`, which `Object.keys` lists first. -/
theorem downloadExcel_not_first_encounter_order :
    familiesInOrder [mkFile "2_a.jpg" 0, mkFile "2_1.jpg" 1] = ["2_a".toList, "2".toList] ∧
    (applyEdits (processFiles [] 0 1 [mkFile "2_a.jpg" 0, mkFile "2_1.jpg" 1]).1
        [Edit.comment "2_a".toList "A".toList, Edit.comment "2".toList "B".toList,
         Edit.rename "2".toList 0 "a".toList]).map
      (fun e => (e.1, e.2.comment, e.2.images.map
        (fun r => (r.originalName, r.currentName)))) =
      [("2_a".toList, "A".toList, [("2_a.jpg".toList, "2_a.jpg".toList)]),
       ("2".toList, "B".toList, [("2_1.jpg".toList, "2_a.jpg".toList)])] ∧
    commentInCreationOrder
      (applyEdits (processFiles [] 0 1 [mkFile "2_a.jpg" 0, mkFile "2_1.jpg" 1]).1
        [Edit.comment "2_a".toList "A".toList, Edit.comment "2".toList "B".toList,
         Edit.rename "2".toList 0 "a".toList])
      (some "2_a.jpg".toList) = "A".toList ∧
    downloadExcel [some "Image".toList] [[some "2_a.jpg".toList]] 0
      (applyEdits (processFiles [] 0 1 [mkFile "2_a.jpg" 0, mkFile "2_1.jpg" 1]).1
        [Edit.comment "2_a".toList "A".toList, Edit.comment "2".toList "B".toList,
         Edit.rename "2".toList 0 "a".toList]) =
      some ([some "Image".toList, some "Comments".toList],
        [[some "2_a.jpg".toList, some "B".toList]]) := by
  decide

end ImageTool
